import Mathlib

/-!
# Verification of `mdbook-gitinfo` against its specification

Shallow embedding of the `mdbook-gitinfo` preprocessor (Rust) in Lean 4.
Rust `&str`/`String` values are modelled as `List Char` (`Str`); UTF-8
byte-level details are abstracted to character sequences, which is faithful
for the ASCII-centric operations the program performs.  External processes
(the `git` binary) are modelled as oracle functions `List Str → Option Str`
returning the trimmed stdout on success (`none` = non-zero exit / launch
failure), matching `git::get_git_output`.

Sources embedded: `src/layout.rs`, `src/renderer.rs`, `src/timefmt.rs`,
`src/git.rs`, `src/processor.rs`, `src/chapters.rs`.
-/

set_option maxHeartbeats 1000000
set_option maxRecDepth 100000

namespace GitInfo

/-- Rust string slices / owned strings, modelled as character lists. -/
abbrev Str := List Char

/-- Literal helper: view a Lean string literal as a `Str`. -/
def lit (s : String) : Str := s.data

/-- Rust `char::is_whitespace`, restricted to the ASCII whitespace the
program ever meets (space, tab, newline, carriage return). -/
def isWs (c : Char) : Bool := c = ' ' || c = '\t' || c = '\n' || c = '\r'

/-- Rust `str::trim_start` (with the ASCII-whitespace restriction above). -/
def trimStart (s : Str) : Str := s.dropWhile (fun c => isWs c)

/-- Rust `str::trim_end`. -/
def trimEnd (s : Str) : Str := (trimStart s.reverse).reverse

/-- Rust `str::trim`. -/
def trim (s : Str) : Str := trimEnd (trimStart s)

/-- Rust `str::trim_start_matches(|c| c == ' ' || c == '\t')` as used for
fence detection in `processor.rs`. -/
def trimStartSpTab (s : Str) : Str := s.dropWhile (fun c => c = ' ' || c = '\t')

/-- Fuel-based worker for `trimStartMatches` (structural recursion so
that the kernel can evaluate it; `fuel = s.length` always suffices since
every iteration drops at least one character). -/
def trimStartMatchesAux (pat : Str) : Nat → Str → Str
  | 0, s => s
  | fuel + 1, s =>
    if pat ≠ [] ∧ pat <+: s then
      trimStartMatchesAux pat fuel (s.drop pat.length)
    else s

/-- Rust `str::trim_start_matches(pat)` for a string pattern: repeatedly
strip the pattern from the front while it is a prefix. -/
def trimStartMatches (pat : Str) (s : Str) : Str :=
  trimStartMatchesAux pat s.length s

/-- Rust `str::trim_end_matches(pat)`: repeatedly strip the pattern from
the end while it is a suffix (realized by stripping the reversed pattern
from the front of the reversed string). -/
def trimEndMatches (pat : Str) (s : Str) : Str :=
  (trimStartMatches pat.reverse s.reverse).reverse

/-! ## `src/config.rs` — configuration data model (the slice used here) -/

/-- `config.rs`: `MessageConfig`. -/
structure MessageConfig where
  header : Option Str
  footer : Option Str
  both   : Option Str
deriving DecidableEq, Repr

/-- `config.rs`: `MarginSetting` (`One` scalar, `Quad` CSS-shorthand list,
`Sides` per-side record). -/
inductive MarginSetting where
  | one (v : Str)
  | quad (vs : List Str)
  | sides (top right bottom left : Option Str)
deriving DecidableEq, Repr

/-- `config.rs`: `MarginConfig`. -/
structure MarginConfig where
  header : Option MarginSetting
  footer : Option MarginSetting
  both   : Option MarginSetting
deriving DecidableEq, Repr

/-- The slice of `config.rs`'s `GitInfoConfig` consumed by the resolution
functions of `layout.rs` verified here. -/
structure GitInfoConfig where
  template : Option Str
  message  : Option MessageConfig
  margin   : Option MarginConfig
deriving DecidableEq, Repr

/-! ## `src/layout.rs` -/

/-- `layout.rs::resolve_messages`: per-placement message precedence
header/footer → both → legacy template → hard-coded default. -/
def resolve_messages (cfg : GitInfoConfig) : Str × Str :=
  let dflt := lit "{{date}}{{sep}}commit: {{hash}}"
  let both := cfg.message.bind (fun m => m.both)
  let header :=
    (((cfg.message.bind (fun m => m.header)).or both).or cfg.template).getD dflt
  let footer :=
    (((cfg.message.bind (fun m => m.footer)).or both).or cfg.template).getD dflt
  (header, footer)

/-- `layout.rs::margin_from_setting`. -/
def margin_from_setting (ms : MarginSetting) (fallback : Fin 4 → Str) :
    Fin 4 → Str :=
  match ms with
  | .one v => fun _ => v
  | .quad vs =>
    match vs with
    | [] => fallback
    | [v] => fun _ => v
    | [vtb, vrl] => ![vtb, vrl, vtb, vrl]
    | [t, rl, b] => ![t, rl, b, rl]
    | v0 :: v1 :: v2 :: v3 :: _ => ![v0, v1, v2, v3]
  | .sides top right bottom left =>
    ![top.getD (fallback 0), right.getD (fallback 1),
      bottom.getD (fallback 2), left.getD (fallback 3)]

/-- `layout.rs::resolve_margins`: the "both" base resolves against an
all-zero fallback; a present per-placement setting resolves against that
base; an absent per-placement setting yields `["0","0","2em","0"]`. -/
def resolve_margins (m : Option MarginConfig) :
    (Fin 4 → Str) × (Fin 4 → Str) :=
  let default_header : Fin 4 → Str := ![lit "0", lit "0", lit "2em", lit "0"]
  let default_footer : Fin 4 → Str := ![lit "0", lit "0", lit "2em", lit "0"]
  let both := m.bind (fun mm => mm.both)
  let base := (both.map (fun b => margin_from_setting b ![lit "0", lit "0", lit "0", lit "0"])).getD
    ![lit "0", lit "0", lit "0", lit "0"]
  let header := ((m.bind (fun mm => mm.header)).map
    (fun h => margin_from_setting h base)).getD default_header
  let footer := ((m.bind (fun mm => mm.footer)).map
    (fun f => margin_from_setting f base)).getD default_footer
  (header, footer)

/-! ## `src/renderer.rs` -/

/-- Fuel-based worker for `replaceAll` (structural recursion so that the
kernel can evaluate it; `fuel = s.length` always suffices since every
step consumes at least one character). -/
def replaceAllAux (pat rep : Str) : Nat → Str → Str
  | 0, s => s
  | fuel + 1, s =>
    match s with
    | [] => []
    | c :: rest =>
      if pat ≠ [] ∧ pat <+: (c :: rest) then
        rep ++ replaceAllAux pat rep fuel ((c :: rest).drop pat.length)
      else
        c :: replaceAllAux pat rep fuel rest

/-- Rust `str::replace(pat, to)`: replace every non-overlapping occurrence
of `pat`, scanning left to right.  (For the empty pattern the scan just
copies the input; the program only ever uses non-empty patterns.) -/
def replaceAll (pat rep s : Str) : Str := replaceAllAux pat rep s.length s

/-- `renderer.rs::render_template`: chained literal replacement of the six
fixed placeholders. -/
def render_template (template hash long_hash tag date sep branch : Str) : Str :=
  replaceAll (lit "{{branch}}") branch
    (replaceAll (lit "{{sep}}") sep
      (replaceAll (lit "{{date}}") date
        (replaceAll (lit "{{tag}}") tag
          (replaceAll (lit "{{long}}") long_hash
            (replaceAll (lit "{{hash}}") hash template)))))

/-- `renderer.rs::style_block`. -/
def style_block (font_size align : Str) (margin : Fin 4 → Str) : Str :=
  lit "font-size:" ++ font_size ++ lit ";padding:4px;margin:" ++
    margin 0 ++ lit " " ++ margin 1 ++ lit " " ++ margin 2 ++ lit " " ++ margin 3 ++
    lit ";text-align:" ++ align ++ lit ";display:block;"

/-- `renderer.rs::wrap_block`. -/
def wrap_block (is_header : Bool) (style html : Str) : Str :=
  if is_header then
    lit "<header class=\x22gitinfo-header\x22 style=\x22" ++ style ++ lit "\x22>" ++
      html ++ lit "</header>"
  else
    lit "<footer class=\x22gitinfo-footer\x22 style=\x22" ++ style ++ lit "\x22>" ++
      html ++ lit "</footer>"

/-! ## `src/timefmt.rs`

Dates are represented by (seconds since the Unix epoch, offset seconds);
civil-date conversions use the standard Gregorian-calendar algorithms.
RFC3339 parsing models `chrono::DateTime::parse_from_rfc3339` on the
grammar `YYYY-MM-DD(T|t)HH:MM:SS[.digits](Z|z|±HH:MM)` with full range
validation; leap seconds are not modelled.  The host's local offset (used
by timezone mode `local`) is passed explicitly as `localOffset`. -/

/-- Rust `str::split_once(c)`: split at the first occurrence of `c`. -/
def splitOnceChar (c : Char) : Str → Option (Str × Str)
  | [] => none
  | x :: xs =>
    if x = c then some ([], xs)
    else (splitOnceChar c xs).map (fun p => (x :: p.1, p.2))

/-- Rust `str::rsplit_once(c)`: split at the last occurrence of `c`. -/
def rsplitOnceChar (c : Char) (s : Str) : Option (Str × Str) :=
  (splitOnceChar c s.reverse).map (fun p => (p.2.reverse, p.1.reverse))

/-- Rust `str::to_ascii_lowercase`. -/
def asciiLower (s : Str) : Str := s.map Char.toLower

/-- Numeric value of a digit list (most significant first). -/
def digitsVal (s : Str) : Nat := s.foldl (fun acc c => acc * 10 + (c.toNat - 48)) 0

/-- Rust `str::parse::<i32>()`: optional sign, one or more digits, i32 range. -/
def parseI32 (s : Str) : Option Int :=
  let (sg, ds) : Int × Str :=
    match s with
    | '+' :: r => (1, r)
    | '-' :: r => (-1, r)
    | r => (1, r)
  if ds ≠ [] ∧ ds.all Char.isDigit then
    let v : Int := sg * digitsVal ds
    if -2147483648 ≤ v ∧ v ≤ 2147483647 then some v else none
  else none

/-- `timefmt.rs`: `TzMode`. -/
inductive TzMode where
  | localTz
  | utc
  | source
  | fixed (offsetSecs : Int)
deriving DecidableEq, Repr

/-- `timefmt.rs::TzMode::parse`: `local` / `utc` / `source` /
`fixed:±HH:MM` (case-insensitive, defaulting to `local` on anything
unrecognized or on an invalid fixed offset). -/
def TzMode.parse (s : Option Str) : TzMode :=
  let raw := asciiLower (trim (s.getD (lit "local")))
  if raw = lit "local" then .localTz
  else if raw = lit "utc" then .utc
  else if raw = lit "source" then .source
  else if lit "fixed:" <+: raw then
    let off := raw.drop 6
    let parsed : Option Int :=
      (splitOnceChar ':' off).bind (fun hm =>
        match hm.1 with
        | [] => none
        | c :: hh =>
          let sg : Option Int :=
            if c = '+' then some 1 else if c = '-' then some (-1) else none
          sg.bind (fun sgv =>
            (parseI32 hh).bind (fun hv =>
              (parseI32 hm.2).map (fun mv => sgv * (hv * 3600 + mv * 60)))))
    match parsed with
    | some secs =>
      -- `FixedOffset::east_opt`: valid iff strictly between -86400 and 86400
      if -86400 < secs ∧ secs < 86400 then .fixed secs else .localTz
    | none => .localTz
  else .localTz

/-- Leap year test (proleptic Gregorian). -/
def isLeap (y : Int) : Bool := (y % 4 = 0 ∧ y % 100 ≠ 0) ∨ y % 400 = 0

/-- Days in a month. -/
def daysInMonth (y : Int) (m : Nat) : Nat :=
  match m with
  | 1 => 31 | 2 => if isLeap y then 29 else 28 | 3 => 31 | 4 => 30
  | 5 => 31 | 6 => 30 | 7 => 31 | 8 => 31 | 9 => 30 | 10 => 31
  | 11 => 30 | 12 => 31 | _ => 0

/-- Days from the Unix epoch to civil date `y-m-d` (standard algorithm). -/
def daysFromCivil (y : Int) (m d : Nat) : Int :=
  let y' : Int := y - (if m ≤ 2 then 1 else 0)
  let era : Int := y'.ediv 400
  let yoe : Int := y' - era * 400
  let mInt : Int := m
  let doy : Int := ((153 * (mInt + (if 2 < m then -3 else 9)) + 2).ediv 5) + d - 1
  let doe : Int := yoe * 365 + yoe.ediv 4 - yoe.ediv 100 + doy
  era * 146097 + doe - 719468

/-- Civil date from days since the Unix epoch (standard algorithm). -/
def civilFromDays (z : Int) : Int × Int × Int :=
  let z' := z + 719468
  let era := z'.ediv 146097
  let doe := z'.emod 146097
  let yoe := (doe - doe.ediv 1460 + doe.ediv 36524 - doe.ediv 146096).ediv 365
  let y := yoe + era * 400
  let doy := doe - (365 * yoe + yoe.ediv 4 - yoe.ediv 100)
  let mp := (5 * doy + 2).ediv 153
  let d := doy - (153 * mp + 2).ediv 5 + 1
  let m := mp + (if mp < 10 then 3 else -9)
  (y + (if m ≤ 2 then 1 else 0), m, d)

/-- A parsed `DateTime<FixedOffset>`: instant (epoch seconds) plus the
embedded UTC offset in seconds. -/
structure DateTimeFix where
  epoch : Int
  offset : Int
deriving DecidableEq, Repr

/-- Skip an optional fractional-seconds part `.digits`. -/
def dropFrac : Str → Option Str
  | '.' :: cs =>
    if (cs.takeWhile Char.isDigit) ≠ [] then some (cs.dropWhile Char.isDigit)
    else none
  | cs => some cs

/-- Parse the RFC3339 offset part: `Z`/`z` or `±HH:MM`. -/
def parseOffsetPart : Str → Option Int
  | ['Z'] => some 0
  | ['z'] => some 0
  | [sgc, o1, o2, ':', o3, o4] =>
    if (sgc = '+' ∨ sgc = '-') ∧ [o1, o2, o3, o4].all Char.isDigit then
      let hh := digitsVal [o1, o2]
      let mm := digitsVal [o3, o4]
      if hh ≤ 23 ∧ mm ≤ 59 then
        let v : Int := hh * 3600 + mm * 60
        some (if sgc = '-' then -v else v)
      else none
    else none
  | _ => none

/-- Model of `chrono::DateTime::parse_from_rfc3339`. -/
def parseRFC3339 (s : Str) : Option DateTimeFix :=
  match s with
  | y1 :: y2 :: y3 :: y4 :: '-' :: m1 :: m2 :: '-' :: d1 :: d2 :: t ::
      h1 :: h2 :: ':' :: mi1 :: mi2 :: ':' :: s1 :: s2 :: rest =>
    if [y1, y2, y3, y4, m1, m2, d1, d2, h1, h2, mi1, mi2, s1, s2].all Char.isDigit ∧
        (t = 'T' ∨ t = 't') then
      let y : Int := digitsVal [y1, y2, y3, y4]
      let mo := digitsVal [m1, m2]
      let da := digitsVal [d1, d2]
      let hr := digitsVal [h1, h2]
      let mi := digitsVal [mi1, mi2]
      let se := digitsVal [s1, s2]
      if 1 ≤ mo ∧ mo ≤ 12 ∧ 1 ≤ da ∧ da ≤ daysInMonth y mo ∧
          hr ≤ 23 ∧ mi ≤ 59 ∧ se ≤ 59 then
        (dropFrac rest).bind (fun rest' =>
          (parseOffsetPart rest').map (fun off =>
            { epoch := daysFromCivil y mo da * 86400 +
                (hr * 3600 + mi * 60 + se : Nat) - off,
              offset := off }))
      else none
    else none
  | _ => none

/-- Decimal digits of a natural number. -/
def natDigits (n : Nat) : Str := Nat.toDigits 10 n

/-- Zero-pad a nonnegative value to two digits (chrono `%m`/`%d`/`%H`/`%M`/`%S`). -/
def pad2 (i : Int) : Str :=
  let n := i.toNat
  if n < 10 then '0' :: natDigits n else natDigits n

/-- chrono `%Y`: year zero-padded to at least four digits. -/
def fmtYear4 (y : Int) : Str :=
  let pad (n : Nat) : Str :=
    let ds := natDigits n
    List.replicate (4 - ds.length) '0' ++ ds
  if y < 0 then '-' :: pad (-y).toNat else pad y.toNat

/-- chrono strftime rendering restricted to the directives the program's
defaults and the spec's scenarios use (`%Y %m %d %H %M %S`); any other
`%x` sequence is kept literally in this model. -/
def runFmt (y mo da hr mi se : Int) : Str → Str
  | '%' :: c :: rest =>
    (match c with
      | 'Y' => fmtYear4 y
      | 'm' => pad2 mo
      | 'd' => pad2 da
      | 'H' => pad2 hr
      | 'M' => pad2 mi
      | 'S' => pad2 se
      | other => ['%', other]) ++ runFmt y mo da hr mi se rest
  | c :: rest => c :: runFmt y mo da hr mi se rest
  | [] => []

/-- Render an instant at a given display offset with a strftime pattern. -/
def formatAtOffset (fmt : Str) (epoch off : Int) : Str :=
  let wall := epoch + off
  let days := wall.ediv 86400
  let sod := wall.emod 86400
  let ymd := civilFromDays days
  runFmt ymd.1 ymd.2.1 ymd.2.2 (sod.ediv 3600) ((sod.emod 3600).ediv 60)
    (sod.emod 60) fmt

/-- `timefmt.rs::format_commit_datetime`: parse the raw RFC3339 timestamp
(returning `"unknown"` on failure), convert to the offset selected by the
timezone mode, and render `"<date-fmt> <time-fmt>"` (pattern trimmed). -/
def format_commit_datetime (localOffset : Int) (raw : Str) (tz_opt : Option Str)
    (date_fmt time_fmt : Str) : Str :=
  match parseRFC3339 raw with
  | none => lit "unknown"
  | some dt =>
    let off : Int :=
      match TzMode.parse tz_opt with
      | .utc => 0
      | .source => dt.offset
      | .fixed o => o
      | .localTz => localOffset
    let fmt := trim (date_fmt ++ lit " " ++ time_fmt)
    formatAtOffset fmt dt.epoch off

/-! ## `src/git.rs`

`git::get_git_output(args, dir)` shells out to the `git` binary; it is
modelled by an oracle `GitOracle` mapping the argument list to `some`
trimmed stdout (success) or `none` (launch failure / non-zero exit).
The working directory is fixed for a run and folded into the oracle. -/

/-- The external `git` process, as seen through `get_git_output`. -/
abbrev GitOracle := List Str → Option Str

/-- Rust `str::lines()`: split at `'\n'`, optional final line ending,
a trailing `'\r'` on each line stripped. -/
def rustLines (s : Str) : List Str :=
  let ps := s.splitOn '\n'
  let ps := if ps.getLast? = some [] then ps.dropLast else ps
  ps.map (fun l => if l.getLast? = some '\r' then l.dropLast else l)

/-- `git.rs::verify_branch`. -/
def verify_branch (git : GitOracle) (branch : Str) : Bool :=
  (git [lit "rev-parse", lit "--verify", branch]).isSome

/-- The global-tag fallback inside `git.rs::latest_tag_for_branch`:
newest tag by creator date, else the `"No tags found"` sentinel. -/
def latest_tag_fallback (git : GitOracle) : Str :=
  match git [lit "tag", lit "--sort=-creatordate"] with
  | some list =>
    match (rustLines list).find? (fun l => !List.isEmpty (trim l)) with
    | some first => trim first
    | none => lit "No tags found"
  | none => lit "No tags found"

/-- `git.rs::latest_tag_for_branch`: prefer `git describe --tags
--abbrev=0 <branch>`; on failure or empty output fall back to the
globally newest tag; `"No tags found"` when nothing yields a tag. -/
def latest_tag_for_branch (git : GitOracle) (branch : Str) : Str :=
  match git [lit "describe", lit "--tags", lit "--abbrev=0", branch] with
  | some t => if trim t ≠ [] then t else latest_tag_fallback git
  | none => latest_tag_fallback git

/-- `git.rs::github_username_from_email`: extract a username from a
GitHub noreply address, stripping an optional `<numeric-id>+` part. -/
def github_username_from_email (email : Str) : Option Str :=
  let sfx := lit "@users.noreply.github.com"
  if sfx <:+ email then
    let locl := trim (email.take (email.length - sfx.length))
    if locl = [] then none
    else
      let username :=
        match splitOnceChar '+' locl with
        | some p => if trim p.2 ≠ [] then trim p.2 else locl
        | none => locl
      if username = [] then none else some username
  else none

/-- `git.rs::is_plausible_github_username`: 1–39 characters, ASCII
alphanumeric or hyphen, no leading or trailing hyphen. -/
def is_plausible_github_username (u : Str) : Bool :=
  if u.length = 0 ∨ 39 < u.length then false
  else if u.head? = some '-' ∨ u.getLast? = some '-' then false
  else u.all (fun c => c.isAlphanum || c = '-')

/-- Rust `str::splitn(2, char::is_whitespace)`: the part before the first
whitespace character, and (when one exists) the part after it. -/
def splitOnceWs (s : Str) : Str × Option Str :=
  let pre := s.takeWhile (fun c => !isWs c)
  match s.drop pre.length with
  | [] => (pre, none)
  | _ :: tail => (pre, some tail)

/-- Byte-wise (= character-wise for this model) lexicographic comparison,
matching the `Ord` instance of Rust's `String` used by `BTreeSet`. -/
def lexCmp : Str → Str → Ordering
  | [], [] => .eq
  | [], _ :: _ => .lt
  | _ :: _, [] => .gt
  | a :: as, b :: bs =>
    if a.toNat < b.toNat then .lt
    else if b.toNat < a.toNat then .gt
    else lexCmp as bs

/-- Strict lexicographic order as a Boolean. -/
def lexLt (a b : Str) : Bool := lexCmp a b = Ordering.lt

/-- Insertion into a strictly-ascending list: the model of
`BTreeSet::insert` followed by sorted iteration. -/
def insertSorted (x : Str) : List Str → List Str
  | [] => [x]
  | h :: t =>
    match lexCmp x h with
    | .lt => x :: h :: t
    | .eq => h :: t
    | .gt => h :: insertSorted x t

/-- One line of `git shortlog -sne --all` output, processed as in
`git.rs::get_contributor_usernames_from_shortlog`: split off the count,
split name from `<email>`, prefer a plausible author name, else a
plausible GitHub-noreply-derived username. -/
def processShortlogLine (set : List Str) (rawLine : Str) : List Str :=
  let line := trim rawLine
  if line = [] then set
  else
    let parts := splitOnceWs line
    let rest := trim (parts.2.getD [])
    if rest = [] then set
    else
      let ne : Str × Option Str :=
        match rsplitOnceChar '<' rest with
        | some p => (trim p.1, some (trim (trimEndMatches (lit ">") p.2)))
        | none => (rest, none)
      if ne.1 ≠ [] ∧ is_plausible_github_username ne.1 then
        insertSorted ne.1 set
      else
        match ne.2 with
        | some em =>
          match github_username_from_email em with
          | some u =>
            if is_plausible_github_username u then insertSorted u set else set
          | none => set
        | none => set

/-- `git.rs::get_contributor_usernames_from_shortlog`: run the shortlog,
fold each line into the BTreeSet model, return the ascending list. -/
def get_contributor_usernames_from_shortlog (git : GitOracle) :
    Option (List Str) :=
  (git [lit "shortlog", lit "-sne", lit "--all"]).map (fun raw =>
    (rustLines raw).foldl processShortlogLine [])

/-! ## `src/repo.rs` (the part used by the page decorator) -/

/-- `repo.rs::tag_url`. -/
def tag_url (base tag : Str) : Str :=
  if lit "github.com" <:+: base then base ++ lit "/releases/tag/" ++ tag
  else if lit "gitlab" <:+: base then base ++ lit "/-/tags/" ++ tag
  else if lit "bitbucket.org" <:+: base then base ++ lit "/src/" ++ tag
  else base ++ lit "/tags/" ++ tag

/-! ## `src/processor.rs` — roster-token scanner -/

/-- `config.rs::ContributorsSource`.  The `src/` snapshot of `config.rs`
predates this enum, but its three variants and their semantics are fully
determined by the uses in `processor.rs`. -/
inductive ContributorsSource where
  | git
  | file
  | inline
deriving DecidableEq, Repr

/-- The mutable fence-tracking variables of
`processor.rs::replace_contributors_tokens`
(`in_fence`, `fence_ch`, `fence_len`). -/
structure ScanState where
  in_fence : Bool
  fence_ch : Char
  fence_len : Nat
deriving DecidableEq, Repr

/-- The initial scanner state (`false`, `'\0'`, `0`). -/
def state0 : ScanState := ⟨false, '\x00', 0⟩

/-- Rust `str::split_inclusive('\n')` (accumulator-based). -/
def splitInclusiveAux : Str → Str → List Str
  | [], acc => if acc = [] then [] else [acc.reverse]
  | c :: cs, acc =>
    if c = '\n' then (acc.reverse ++ ['\n']) :: splitInclusiveAux cs []
    else splitInclusiveAux cs (c :: acc)

/-- Rust `str::split_inclusive('\n')`. -/
def splitInclusive (s : Str) : List Str := splitInclusiveAux s []

/-- Rust `str::split_whitespace` (accumulator-based). -/
def splitWsAux : Str → Str → List Str
  | [], acc => if acc = [] then [] else [acc.reverse]
  | c :: cs, acc =>
    if isWs c then
      (if acc = [] then splitWsAux cs [] else acc.reverse :: splitWsAux cs [])
    else splitWsAux cs (c :: acc)

/-- Rust `str::split_whitespace`. -/
def splitWhitespace (s : Str) : List Str := splitWsAux s []

/-- The HTML chosen for one `{% contributors ... %}` token
(`processor.rs` lines 99–114): inline source renders the token's own
argument list (empty HTML plus a warning when no arguments are given);
`git`/`file` sources substitute the precomputed global HTML. -/
def tokenHtml (source : ContributorsSource) (globalHtml : Str)
    (inlineRenderer : List Str → Str) (args : List Str) : Str :=
  match source with
  | .inline => if args = [] then [] else inlineRenderer args
  | .git => globalHtml
  | .file => globalHtml

/-- The text emitted in place of a recognized token line
(`processor.rs` lines 116–119): a blank line, the trimmed HTML, a blank line. -/
def emittedBlock (source : ContributorsSource) (globalHtml : Str)
    (inlineRenderer : List Str → Str) (args : List Str) : Str :=
  '\n' :: trim (tokenHtml source globalHtml inlineRenderer args) ++ lit "\n\n"

/-- The fence-detection block of the line loop (`processor.rs` lines
42–72): `some st'` when the line is handled as a fence delimiter (both
outcomes emit the line unchanged and continue), `none` when control falls
through to the rest of the loop body. -/
def fenceTransition (st : ScanState) (line : Str) : Option ScanState :=
  match trimStartSpTab line with
  | [] => none
  | first :: restT =>
    if first = '`' ∨ first = '~' then
      let count := ((first :: restT).takeWhile (fun c => c = first)).length
      if 3 ≤ count then
        if ¬ st.in_fence then some ⟨true, first, count⟩
        else if first = st.fence_ch ∧ st.fence_len ≤ count then
          some ⟨false, '\x00', 0⟩
        else none
      else none
    else none

/-- The token-recognition block of the line loop (`processor.rs` lines
88–97) applied to the trimmed line `t`: `some args` when `t` is a
`{% contributors ... %}` token. -/
def tokenParse (t : Str) : Option (List Str) :=
  if lit "\x7b%" <+: t ∧ lit "%\x7d" <:+ t then
    let inner := trim (trimEndMatches (lit "%\x7d") (trimStartMatches (lit "\x7b%") t))
    if lit "contributors" <+: inner then
      some ((((splitWhitespace inner).drop 1).map trim).filter (fun s => s ≠ []))
    else none
  else none

/-- One iteration of the line loop of
`processor.rs::replace_contributors_tokens`: returns the updated fence
state and the text emitted for this line. -/
def processLine (source : ContributorsSource) (globalHtml : Str)
    (inlineRenderer : List Str → Str) (st : ScanState) (line : Str) :
    ScanState × Str :=
  match fenceTransition st line with
  | some st' => (st', line)
  | none =>
    if st.in_fence then (st, line)
    else if line.head? = some '\t' ∨ lit "    " <+: line then (st, line)
    else
      match tokenParse (trim line) with
      | some args => (st, emittedBlock source globalHtml inlineRenderer args)
      | none => (st, line)

/-- The whole line loop, emitted chunks kept as a list. -/
def processAll (source : ContributorsSource) (globalHtml : Str)
    (inlineRenderer : List Str → Str) (st : ScanState) :
    List Str → ScanState × List Str
  | [] => (st, [])
  | l :: ls =>
    let r := processLine source globalHtml inlineRenderer st l
    let rr := processAll source globalHtml inlineRenderer r.1 ls
    (rr.1, r.2 :: rr.2)

/-- `processor.rs::replace_contributors_tokens`. -/
def replace_contributors_tokens (source : ContributorsSource)
    (globalHtml : Str) (inlineRenderer : List Str → Str) (input : Str) : Str :=
  (processAll source globalHtml inlineRenderer state0 (splitInclusive input)).2.flatten

/-! ## `src/processor.rs` — the page decorator (`GitInfo::run`) -/

/-- The resolved configuration values consumed per page by
`GitInfo::run`'s chapter closure (computed once per run, lines 154–221
of `processor.rs`). -/
structure RunCfg where
  contributors_enabled : Bool
  source : ContributorsSource
  globalHtml : Str
  show_header : Bool
  show_footer : Bool
  header_tmpl : Str
  footer_tmpl : Str
  font_size : Str
  align_header : Str
  align_footer : Str
  margin_header : Fin 4 → Str
  margin_footer : Fin 4 → Str
  separator : Str
  date_format : Str
  time_format : Str
  timezone : Option Str
  branch : Str
  hyperlink : Bool
  repo_base : Option Str
  resolved_tag : Str
  content_dir : Str

/-- The per-page git facts (`processor.rs` lines 326–370). -/
structure PageFacts where
  hash_disp : Str
  long_hash : Str
  tag_disp : Str
  formatted_date : Str
  branch_disp : Str
deriving DecidableEq, Repr

/-- `processor.rs` lines 322–370: compute the per-page git facts for a
chapter at `path`.  `PathBuf::join` plus the backslash normalisation is
modelled as `dir ++ "/" ++ path` followed by the `'\\' → '/'` map. -/
def pageFacts (git : GitOracle) (localOffset : Int) (cfg : RunCfg)
    (path : Str) : PageFacts :=
  let path_str := (cfg.content_dir ++ '/' :: path).map
    (fun c => if c = '\\' then '/' else c)
  let short_hash := (git [lit "log", lit "-1", lit "--format=%h", cfg.branch,
    lit "--", path_str]).getD []
  let long_hash := (git [lit "log", lit "-1", lit "--format=%H", cfg.branch,
    lit "--", path_str]).getD []
  let tag := cfg.resolved_tag
  let raw_date := (git [lit "log", lit "-1", lit "--format=%cI", cfg.branch,
    lit "--", path_str]).getD []
  let formatted_date := format_commit_datetime localOffset raw_date
    cfg.timezone cfg.date_format cfg.time_format
  let hb : Str × Str :=
    match cfg.hyperlink, cfg.repo_base with
    | true, some base =>
      (lit "<a href=\x22" ++ base ++ lit "/commit/" ++ long_hash ++ lit "\x22>" ++
        short_hash ++ lit "</a>",
       lit "<a href=\x22" ++ base ++ lit "/tree/" ++ cfg.branch ++ lit "\x22>" ++
        cfg.branch ++ lit "</a>")
    | _, _ => (short_hash, cfg.branch)
  let tag_disp :=
    if tag ≠ [] ∧ ¬ (lit "No tags found" <:+: tag) ∧ cfg.hyperlink then
      match cfg.repo_base with
      | some base =>
        lit "<a href=\x22" ++ tag_url base tag ++ lit "\x22>" ++ tag ++ lit "</a>"
      | none => tag
    else lit "-"
  { hash_disp := hb.1, long_hash := long_hash, tag_disp := tag_disp,
    formatted_date := formatted_date, branch_disp := hb.2 }

/-- The per-page content transformation of `GitInfo::run`
(`processor.rs` lines 372–440): token replacement, then guarded header
prepend, then guarded footer append.  `inlineRenderer` stands for the
handlebars-backed inline-roster closure (lines 375–391). -/
def chapterApply (cfg : RunCfg) (inlineRenderer : List Str → Str)
    (facts : PageFacts) (content : Str) : Str :=
  let content1 :=
    if cfg.contributors_enabled then
      replace_contributors_tokens cfg.source cfg.globalHtml inlineRenderer content
    else
      replace_contributors_tokens cfg.source [] (fun _ => []) content
  let render := fun tmpl => render_template tmpl facts.hash_disp facts.long_hash
    facts.tag_disp facts.formatted_date cfg.separator facts.branch_disp
  let content2 :=
    if cfg.show_header then
      let style := style_block cfg.font_size cfg.align_header cfg.margin_header
      let html := wrap_block true style (render cfg.header_tmpl)
      let insertion := html ++ lit "\n\n"
      if ¬ (insertion <+: content1) then insertion ++ content1 else content1
    else content1
  if cfg.show_footer then
    let style := style_block cfg.font_size cfg.align_footer cfg.margin_footer
    let html := wrap_block false style (render cfg.footer_tmpl)
    let needs_leading_blank := ¬ (lit "\n\n" <:+ content2)
    let pre := if needs_leading_blank then lit "\n\n" else lit "\n"
    if ¬ (html <:+: content2) then content2 ++ pre ++ html ++ ['\n']
    else content2
  else content2

/-- `mdbook_preprocessor::book::BookItem` (chapters carry a name, a
content body, an optional source path and nested sub-items). -/
inductive BookItem where
  | chapter (name : Str) (content : Str) (path : Option Str)
      (subItems : List BookItem)
  | separator
  | partTitle (title : Str)

/-- The per-chapter closure of `GitInfo::run` (lines 321–441): chapters
without a source path are left untouched; all others get per-page facts
and the content transformation. -/
def runChapter (git : GitOracle) (localOffset : Int) (cfg : RunCfg)
    (inlineRenderer : List Str → Str) (content : Str) (path : Option Str) : Str :=
  match path with
  | some p => chapterApply cfg inlineRenderer (pageFacts git localOffset cfg p) content
  | none => content

mutual

/-- `chapters.rs::decorate_chapters` specialised to the run closure:
apply the decoration to a chapter, then recurse into its sub-items. -/
def decorateItem (git : GitOracle) (localOffset : Int) (cfg : RunCfg)
    (inlineRenderer : List Str → Str) : BookItem → BookItem
  | .chapter name content path subs =>
    .chapter name (runChapter git localOffset cfg inlineRenderer content path)
      path (decorateItems git localOffset cfg inlineRenderer subs)
  | .separator => .separator
  | .partTitle t => .partTitle t

/-- `Book::for_each_mut` over a list of items. -/
def decorateItems (git : GitOracle) (localOffset : Int) (cfg : RunCfg)
    (inlineRenderer : List Str → Str) : List BookItem → List BookItem
  | [] => []
  | i :: is => decorateItem git localOffset cfg inlineRenderer i ::
      decorateItems git localOffset cfg inlineRenderer is

end

mutual

/-- The contents of all chapters without a source path, in tree order. -/
def collectPathless : BookItem → List Str
  | .chapter _ content path subs =>
    match path with
    | none => content :: collectPathlessList subs
    | some _ => collectPathlessList subs
  | .separator => []
  | .partTitle _ => []

/-- `collectPathless` over an item list. -/
def collectPathlessList : List BookItem → List Str
  | [] => []
  | i :: is => collectPathless i ++ collectPathlessList is

end

/-! ## Specification-side definitions

The following definitions are written from the specification's words (not
from the source) and exist only to be compared with the embedded code. -/

/-- Spec §4.5: the fence-tracking states `Normal`, `InFence(char, length)`. -/
inductive FenceSpec where
  | normal
  | inFence (ch : Char) (len : Nat)
deriving DecidableEq, Repr

/-- Spec §4.5: a fence line — "a line whose trimmed content starts with
three or more identical backtick or tilde characters" — together with its
delimiter character and run length ("trimmed" = leading indentation
stripped). -/
def specFenceRun (line : Str) : Option (Char × Nat) :=
  match trimStartSpTab line with
  | [] => none
  | first :: restT =>
    if first = '`' ∨ first = '~' then
      let n := ((first :: restT).takeWhile (fun c => c = first)).length
      if 3 ≤ n then some (first, n) else none
    else none

/-- Spec §4.5 state machine: `Normal --(fence-open line)--> InFence`;
`InFence --(matching-or-longer closing fence of same char)--> Normal`;
all other lines leave the state unchanged. -/
def specStep (s : FenceSpec) (line : Str) : FenceSpec :=
  match s with
  | .normal =>
    match specFenceRun line with
    | some cn => .inFence cn.1 cn.2
    | none => .normal
  | .inFence c n =>
    let t := trimStartSpTab line
    if t.head? = some c ∧ n ≤ (t.takeWhile (fun x => x = c)).length then .normal
    else .inFence c n

/-- Abstraction of the code's mutable fence variables to the spec states. -/
def absState (st : ScanState) : FenceSpec :=
  if st.in_fence then .inFence st.fence_ch st.fence_len else .normal

/-- Invariant of reachable scanner states: an open fence was opened by a
backtick or tilde run of length at least 3. -/
def stateInv (st : ScanState) : Prop :=
  st.in_fence = true → (st.fence_ch = '`' ∨ st.fence_ch = '~') ∧ 3 ≤ st.fence_len

/-! ## Statement-side helper definitions for the remaining claims -/

/-- A line is inert for the scanner when, from the initial (out-of-fence)
state, it is emitted unchanged and leaves the state unchanged. -/
def inert (source : ContributorsSource) (globalHtml : Str)
    (inlineRenderer : List Str → Str) (l : Str) : Prop :=
  processLine source globalHtml inlineRenderer state0 l = (state0, l)

/-- The global-roster HTML actually passed to the scanner by
`chapterApply` (empty when contributors are disabled). -/
def usedGlobalHtml (cfg : RunCfg) : Str :=
  if cfg.contributors_enabled then cfg.globalHtml else []

/-- The inline renderer actually passed to the scanner by `chapterApply`
(the constant empty renderer when contributors are disabled). -/
def usedRenderer (cfg : RunCfg) (inlineRenderer : List Str → Str) :
    List Str → Str :=
  if cfg.contributors_enabled then inlineRenderer else fun _ => []

/-- The rendered header block of a page (`processor.rs` lines 421–423). -/
def headerHtmlOf (cfg : RunCfg) (facts : PageFacts) : Str :=
  wrap_block true (style_block cfg.font_size cfg.align_header cfg.margin_header)
    (render_template cfg.header_tmpl facts.hash_disp facts.long_hash
      facts.tag_disp facts.formatted_date cfg.separator facts.branch_disp)

/-- The rendered footer block of a page (`processor.rs` lines 430–432). -/
def footerHtmlOf (cfg : RunCfg) (facts : PageFacts) : Str :=
  wrap_block false (style_block cfg.font_size cfg.align_footer cfg.margin_footer)
    (render_template cfg.footer_tmpl facts.hash_disp facts.long_hash
      facts.tag_disp facts.formatted_date cfg.separator facts.branch_disp)

/-- The guarded header prepend of `chapterApply` in isolation
(`processor.rs` lines 421–428). -/
def headerStep (cfg : RunCfg) (facts : PageFacts) (content : Str) : Str :=
  if cfg.show_header then
    if ¬ ((headerHtmlOf cfg facts ++ lit "\n\n") <+: content) then
      (headerHtmlOf cfg facts ++ lit "\n\n") ++ content
    else content
  else content

/-- The guarded footer append of `chapterApply` in isolation
(`processor.rs` lines 430–440). -/
def footerStep (cfg : RunCfg) (facts : PageFacts) (content : Str) : Str :=
  if cfg.show_footer then
    if ¬ (footerHtmlOf cfg facts <:+: content) then
      content ++ (if ¬ (lit "\n\n" <:+ content) then lit "\n\n" else lit "\n") ++
        footerHtmlOf cfg facts ++ ['\n']
    else content
  else content

/-- A chunk that is a complete line: nonempty, ends with `'\n'`, no
interior `'\n'`. -/
def ClosedLine (l : Str) : Prop := ∃ m, l = m ++ ['\n'] ∧ '\n' ∉ m

/-- A chunk that is an unterminated final line: nonempty, no `'\n'`. -/
def OpenLine (l : Str) : Prop := l ≠ [] ∧ '\n' ∉ l

/-- The shape of `split_inclusive('\n')` output: all chunks are closed
lines, except that the final chunk may instead be an open line. -/
def ValidChain : List Str → Prop
  | [] => True
  | [l] => ClosedLine l ∨ OpenLine l
  | l :: l' :: ls => ClosedLine l ∧ ValidChain (l' :: ls)

/-- Template segments: the formalisation of "a template containing only
recognized placeholders" for claim C5 — a concatenation of placeholder
tokens and literal pieces. -/
inductive TmplSeg where
  | litSeg (s : Str)
  | hashTok
  | longTok
  | tagTok
  | dateTok
  | sepTok
  | branchTok
deriving DecidableEq, Repr

/-- The source text of a segment. -/
def segText : TmplSeg → Str
  | .litSeg s => s
  | .hashTok => lit "{{hash}}"
  | .longTok => lit "{{long}}"
  | .tagTok => lit "{{tag}}"
  | .dateTok => lit "{{date}}"
  | .sepTok => lit "{{sep}}"
  | .branchTok => lit "{{branch}}"

/-- The substituted text of a segment. -/
def segSubst (hash long_hash tag date sep branch : Str) : TmplSeg → Str
  | .litSeg s => s
  | .hashTok => hash
  | .longTok => long_hash
  | .tagTok => tag
  | .dateTok => date
  | .sepTok => sep
  | .branchTok => branch

/-- A template assembled from segments. -/
def flattenSegs (segs : List TmplSeg) : Str := (segs.map segText).flatten

/-- The six recognized placeholder tokens. -/
def sixTokens : List Str :=
  [lit "{{hash}}", lit "{{long}}", lit "{{tag}}", lit "{{date}}",
   lit "{{sep}}", lit "{{branch}}"]

/-- The constant-empty inline renderer (used in concrete scenarios). -/
def irEmpty : List Str → Str := fun _ => []

/-- Concrete per-page facts for the idempotence scenarios. -/
def factsEx : PageFacts :=
  { hash_disp := lit "abc1234", long_hash := lit "abc1234def",
    tag_disp := lit "-", formatted_date := lit "2026-01-14",
    branch_disp := lit "main" }

/-- A concrete resolved configuration whose header template contains a
newline followed by a tilde fence delimiter — the idempotence
counterexample. -/
def cfgNoIdem : RunCfg :=
  { contributors_enabled := true, source := .git,
    globalHtml := lit "<p>R</p>", show_header := true, show_footer := false,
    header_tmpl := lit "A\n~~~", footer_tmpl := lit "",
    font_size := lit "0.8em", align_header := lit "center",
    align_footer := lit "center",
    margin_header := ![lit "0", lit "0", lit "2em", lit "0"],
    margin_footer := ![lit "0", lit "0", lit "2em", lit "0"],
    separator := lit " • ", date_format := lit "%Y-%m-%d",
    time_format := lit "%H:%M:%S", timezone := none, branch := lit "main",
    hyperlink := false, repo_base := none, resolved_tag := lit "v1",
    content_dir := lit "src" }

/-- A concrete well-behaved resolved configuration (single-line header
and footer templates) for the idempotence witness. -/
def cfgIdem : RunCfg :=
  { cfgNoIdem with
      header_tmpl := lit "H: {{hash}}",
      footer_tmpl := lit "F: {{date}}",
      show_footer := true }

/-! # Theorems -/

/-- C2: for each placement (header and footer) independently, the
resolved message equals the explicit per-placement message when set, else
the shared "both" message, else the legacy single template field, else
the default `"{{date}}{{sep}}commit: {{hash}}"`; in particular, with
header="H", both="B", template="T" all set the resolved header is "H";
with only both and template set, both placements resolve to "B"; with
only template set, both resolve to "T"; with nothing set, both resolve to
the default. -/
theorem C2_message_precedence :
    (∀ (cfg : GitInfoConfig) (h : Str),
      cfg.message.bind (fun m => m.header) = some h → (resolve_messages cfg).1 = h) ∧
    (∀ (cfg : GitInfoConfig) (b : Str),
      cfg.message.bind (fun m => m.header) = none →
      cfg.message.bind (fun m => m.both) = some b → (resolve_messages cfg).1 = b) ∧
    (∀ (cfg : GitInfoConfig) (t : Str),
      cfg.message.bind (fun m => m.header) = none →
      cfg.message.bind (fun m => m.both) = none →
      cfg.template = some t → (resolve_messages cfg).1 = t) ∧
    (∀ cfg : GitInfoConfig,
      cfg.message.bind (fun m => m.header) = none →
      cfg.message.bind (fun m => m.both) = none →
      cfg.template = none →
      (resolve_messages cfg).1 = lit "{{date}}{{sep}}commit: {{hash}}") ∧
    (∀ (cfg : GitInfoConfig) (f : Str),
      cfg.message.bind (fun m => m.footer) = some f → (resolve_messages cfg).2 = f) ∧
    (∀ (cfg : GitInfoConfig) (b : Str),
      cfg.message.bind (fun m => m.footer) = none →
      cfg.message.bind (fun m => m.both) = some b → (resolve_messages cfg).2 = b) ∧
    (∀ (cfg : GitInfoConfig) (t : Str),
      cfg.message.bind (fun m => m.footer) = none →
      cfg.message.bind (fun m => m.both) = none →
      cfg.template = some t → (resolve_messages cfg).2 = t) ∧
    (∀ cfg : GitInfoConfig,
      cfg.message.bind (fun m => m.footer) = none →
      cfg.message.bind (fun m => m.both) = none →
      cfg.template = none →
      (resolve_messages cfg).2 = lit "{{date}}{{sep}}commit: {{hash}}") ∧
    resolve_messages ⟨some (lit "T"), some ⟨some (lit "H"), none, some (lit "B")⟩, none⟩ =
      (lit "H", lit "B") ∧
    resolve_messages ⟨some (lit "T"), some ⟨none, none, some (lit "B")⟩, none⟩ =
      (lit "B", lit "B") ∧
    resolve_messages ⟨some (lit "T"), none, none⟩ = (lit "T", lit "T") ∧
    resolve_messages ⟨none, none, none⟩ =
      (lit "{{date}}{{sep}}commit: {{hash}}", lit "{{date}}{{sep}}commit: {{hash}}") := by
  refine ⟨?_, ?_, ?_, ?_, ?_, ?_, ?_, ?_, rfl, rfl, rfl, rfl⟩
  · intro cfg h hh
    unfold resolve_messages
    rw [hh]
    rfl
  · intro cfg b hh hb
    unfold resolve_messages
    rw [hh, hb]
    rfl
  · intro cfg t hh hb ht
    unfold resolve_messages
    rw [hh, hb, ht]
    rfl
  · intro cfg hh hb ht
    unfold resolve_messages
    rw [hh, hb, ht]
    rfl
  · intro cfg f hf
    unfold resolve_messages
    rw [hf]
    rfl
  · intro cfg b hf hb
    unfold resolve_messages
    rw [hf, hb]
    rfl
  · intro cfg t hf hb ht
    unfold resolve_messages
    rw [hf, hb, ht]
    rfl
  · intro cfg hf hb ht
    unfold resolve_messages
    rw [hf, hb, ht]
    rfl

/-- C2 witness: the precedence theorem applied at a concrete
configuration with only `message.header` set. -/
theorem C2_witness :
    (resolve_messages ⟨none, some ⟨some (lit "H"), none, none⟩, none⟩).1 = lit "H" :=
  C2_message_precedence.1 ⟨none, some ⟨some (lit "H"), none, none⟩, none⟩ (lit "H") rfl

/-- C3 counterexample: with `margin.both = "5em"` set and no
per-placement margins, both resolved margins are `["0","0","2em","0"]`:
the 2em bottom gap appears even though a "both" margin participates,
contradicting the claim that it never appears in that situation. -/
theorem C3_counterexample :
    resolve_margins (some ⟨none, none, some (.one (lit "5em"))⟩) =
      (![lit "0", lit "0", lit "2em", lit "0"],
       ![lit "0", lit "0", lit "2em", lit "0"]) ∧
    (resolve_margins (some ⟨none, none, some (.one (lit "5em"))⟩)).1 2 = lit "2em" :=
  ⟨rfl, rfl⟩

/-- C3 (amended): the "both" margin resolves first against an all-zero
fallback to form a base; a per-placement margin, when present, resolves
against that base as its fallback; and an absent per-placement margin
always defaults to `["0","0","2em","0"]`, whether or not a "both" margin
is set (the base influences the result only through present per-placement
settings). -/
theorem C3_margin_resolution :
    (∀ (m : Option MarginConfig) (b hs : MarginSetting),
      m.bind (fun mm => mm.both) = some b →
      m.bind (fun mm => mm.header) = some hs →
      (resolve_margins m).1 = margin_from_setting hs
        (margin_from_setting b ![lit "0", lit "0", lit "0", lit "0"])) ∧
    (∀ (m : Option MarginConfig) (hs : MarginSetting),
      m.bind (fun mm => mm.both) = none →
      m.bind (fun mm => mm.header) = some hs →
      (resolve_margins m).1 =
        margin_from_setting hs ![lit "0", lit "0", lit "0", lit "0"]) ∧
    (∀ m : Option MarginConfig,
      m.bind (fun mm => mm.header) = none →
      (resolve_margins m).1 = ![lit "0", lit "0", lit "2em", lit "0"]) ∧
    (∀ (m : Option MarginConfig) (b fs : MarginSetting),
      m.bind (fun mm => mm.both) = some b →
      m.bind (fun mm => mm.footer) = some fs →
      (resolve_margins m).2 = margin_from_setting fs
        (margin_from_setting b ![lit "0", lit "0", lit "0", lit "0"])) ∧
    (∀ (m : Option MarginConfig) (fs : MarginSetting),
      m.bind (fun mm => mm.both) = none →
      m.bind (fun mm => mm.footer) = some fs →
      (resolve_margins m).2 =
        margin_from_setting fs ![lit "0", lit "0", lit "0", lit "0"]) ∧
    (∀ m : Option MarginConfig,
      m.bind (fun mm => mm.footer) = none →
      (resolve_margins m).2 = ![lit "0", lit "0", lit "2em", lit "0"]) := by
  refine ⟨?_, ?_, ?_, ?_, ?_, ?_⟩
  · intro m b hs hb hh
    unfold resolve_margins
    rw [hb, hh]
    rfl
  · intro m hs hb hh
    unfold resolve_margins
    rw [hb, hh]
    rfl
  · intro m hh
    unfold resolve_margins
    rw [hh]
    rfl
  · intro m b fs hb hf
    unfold resolve_margins
    rw [hb, hf]
    rfl
  · intro m fs hb hf
    unfold resolve_margins
    rw [hb, hf]
    rfl
  · intro m hf
    unfold resolve_margins
    rw [hf]
    rfl

/-- C3 witness: the amended theorem applied at a configuration with a
"both" margin and a present header margin given as partial sides. -/
theorem C3_witness :
    (resolve_margins (some ⟨some (.sides none none none none), none,
        some (.one (lit "5em"))⟩)).1 =
      ![lit "5em", lit "5em", lit "5em", lit "5em"] :=
  C3_margin_resolution.1
    (some ⟨some (.sides none none none none), none, some (.one (lit "5em"))⟩)
    (.one (lit "5em")) (.sides none none none none) rfl rfl

/-- C7: `latest_tag_for_branch` prefers the nearest tag reachable from
the branch tip (`git describe`); if that lookup fails or returns empty it
falls back to the globally most-recently-created tag; and when both the
branch-scoped lookup and the global tag listing yield nothing, the result
is exactly the sentinel `"No tags found"` (the function is total: no
error is raised). -/
theorem C7_latest_tag_fallback :
    (∀ (git : GitOracle) (branch t : Str),
      git [lit "describe", lit "--tags", lit "--abbrev=0", branch] = some t →
      trim t ≠ [] → latest_tag_for_branch git branch = t) ∧
    (∀ (git : GitOracle) (branch listing first : Str),
      (∀ t, git [lit "describe", lit "--tags", lit "--abbrev=0", branch] = some t →
        trim t = []) →
      git [lit "tag", lit "--sort=-creatordate"] = some listing →
      (rustLines listing).find? (fun l => !List.isEmpty (trim l)) = some first →
      latest_tag_for_branch git branch = trim first) ∧
    (∀ (git : GitOracle) (branch : Str),
      (∀ t, git [lit "describe", lit "--tags", lit "--abbrev=0", branch] = some t →
        trim t = []) →
      (∀ listing, git [lit "tag", lit "--sort=-creatordate"] = some listing →
        (rustLines listing).find? (fun l => !List.isEmpty (trim l)) = none) →
      latest_tag_for_branch git branch = lit "No tags found") := by
  refine ⟨?_, ?_, ?_⟩
  · intro git branch t hd hne
    unfold latest_tag_for_branch
    rw [hd]
    simp [hne]
  · intro git branch listing first hd hl hf
    unfold latest_tag_for_branch latest_tag_fallback
    cases hdesc : git [lit "describe", lit "--tags", lit "--abbrev=0", branch] with
    | none => simp only [hl, hf]
    | some t =>
      have ht := hd t hdesc
      simp only [ht, hl, hf, ne_eq, not_true_eq_false, if_false]
  · intro git branch hd hl
    unfold latest_tag_for_branch latest_tag_fallback
    cases hdesc : git [lit "describe", lit "--tags", lit "--abbrev=0", branch] with
    | none =>
      cases hlist : git [lit "tag", lit "--sort=-creatordate"] with
      | none => rfl
      | some listing => simp only [hl listing hlist]
    | some t =>
      have ht := hd t hdesc
      cases hlist : git [lit "tag", lit "--sort=-creatordate"] with
      | none => simp only [ht, ne_eq, not_true_eq_false, if_false]
      | some listing =>
        simp only [ht, hl listing hlist, ne_eq, not_true_eq_false, if_false]

/-- C7 witness: the tag-fallback theorem applied to a concrete oracle
with no tags anywhere. -/
theorem C7_witness :
    latest_tag_for_branch (fun _ => none) (lit "main") = lit "No tags found" :=
  C7_latest_tag_fallback.2.2 (fun _ => none) (lit "main")
    (fun t ht => by cases ht) (fun listing hl => by cases hl)

/-- C6 counterexample: with a valid raw timestamp but date format
`"unknown"` and empty time format, the function also returns `"unknown"`,
so `"unknown"` is not returned *exactly* when RFC3339 parsing fails. -/
theorem C6_counterexample :
    format_commit_datetime 0 (lit "2026-01-14T00:00:00+00:00") none
      (lit "unknown") (lit "") = lit "unknown" ∧
    parseRFC3339 (lit "2026-01-14T00:00:00+00:00") ≠ none := by
  exact ⟨by decide, by decide⟩

/-- C6 (amended): `format_commit_datetime` returns `"unknown"` whenever
the raw timestamp fails RFC3339 parsing (and, being a total function,
never propagates an exception) — though not *only* then, since a format
pattern rendering to `"unknown"` also produces it; on successful parse it
converts to the offset selected by the timezone mode and renders the date
and time patterns joined by one space and trimmed — in particular,
timezone "fixed:+05:30" with raw timestamp "2026-01-14T00:00:00+00:00",
date format "%Y-%m-%d" and time format "%H:%M" yields
"2026-01-14 05:30". -/
theorem C6_format_commit_datetime :
    (∀ (localOff : Int) (raw : Str) (tz : Option Str) (df tf : Str),
      parseRFC3339 raw = none →
      format_commit_datetime localOff raw tz df tf = lit "unknown") ∧
    TzMode.parse (some (lit "fixed:+05:30")) = .fixed 19800 ∧
    format_commit_datetime 0 (lit "2026-01-14T00:00:00+00:00")
      (some (lit "fixed:+05:30")) (lit "%Y-%m-%d") (lit "%H:%M") =
      lit "2026-01-14 05:30" := by
  refine ⟨?_, by decide, by decide⟩
  intro localOff raw tz df tf h
  unfold format_commit_datetime
  rw [h]

/-- C6 witness: the amended theorem applied to an unparsable timestamp. -/
theorem C6_witness :
    format_commit_datetime 0 (lit "yesterday") none (lit "%Y-%m-%d")
      (lit "%H:%M:%S") = lit "unknown" :=
  C6_format_commit_datetime.1 0 (lit "yesterday") none (lit "%Y-%m-%d")
    (lit "%H:%M:%S") (by decide)

/-! ### Helper lemmas for the contributor-roster claims -/

theorem lexCmp_self (a : Str) : lexCmp a a = .eq := by
  induction a with
  | nil => rfl
  | cons c cs ih => simp [lexCmp, ih]

theorem lexLt_irrefl (a : Str) : lexLt a a = false := by
  simp [lexLt, lexCmp_self]

theorem lexCmp_gt_lt : ∀ {a b : Str}, lexCmp a b = .gt → lexCmp b a = .lt := by
  intro a
  induction a with
  | nil =>
    intro b h
    cases b <;> simp [lexCmp] at h
  | cons c cs ih =>
    intro b h
    cases b with
    | nil => simp [lexCmp]
    | cons d ds =>
      by_cases h1 : c.toNat < d.toNat
      · simp [lexCmp, h1] at h
      · by_cases h2 : d.toNat < c.toNat
        · simp [lexCmp, h1, h2]
        · simp [lexCmp, h1, h2] at h ⊢
          exact ih h

theorem lexCmp_lt_trans : ∀ {a b c : Str},
    lexCmp a b = .lt → lexCmp b c = .lt → lexCmp a c = .lt := by
  intro a
  induction a with
  | nil =>
    intro b c h1 h2
    cases b with
    | nil => simp [lexCmp] at h1
    | cons y ys =>
      cases c with
      | nil => simp [lexCmp] at h2
      | cons z zs => simp [lexCmp]
  | cons x xs ih =>
    intro b c h1 h2
    cases b with
    | nil => simp [lexCmp] at h1
    | cons y ys =>
      cases c with
      | nil => simp [lexCmp] at h2
      | cons z zs =>
        by_cases hxy : x.toNat < y.toNat
        · by_cases hyz : y.toNat < z.toNat
          · simp [lexCmp]
            omega
          · by_cases hzy : z.toNat < y.toNat
            · simp [lexCmp, hyz, hzy] at h2
            · have : y.toNat = z.toNat := by omega
              simp [lexCmp]
              omega
        · by_cases hyx : y.toNat < x.toNat
          · simp [lexCmp, hxy, hyx] at h1
          · have hxy' : x.toNat = y.toNat := by omega
            simp [lexCmp, hxy, hyx] at h1
            by_cases hyz : y.toNat < z.toNat
            · simp [lexCmp]
              omega
            · by_cases hzy : z.toNat < y.toNat
              · simp [lexCmp, hyz, hzy] at h2
              · simp [lexCmp, hyz, hzy] at h2
                have hac := ih h1 h2
                simp [lexCmp, hac]
                omega

theorem mem_insertSorted : ∀ {x : Str} {l : List Str} {y : Str},
    y ∈ insertSorted x l → y = x ∨ y ∈ l := by
  intro x l
  induction l with
  | nil =>
    intro y hy
    simp [insertSorted] at hy
    exact Or.inl hy
  | cons h t ih =>
    intro y hy
    cases hc : lexCmp x h with
    | lt =>
      simp [insertSorted, hc] at hy
      rcases hy with hy | hy | hy
      · exact Or.inl hy
      · exact Or.inr (by simp [hy])
      · exact Or.inr (by simp [hy])
    | eq =>
      simp [insertSorted, hc] at hy
      rcases hy with hy | hy
      · exact Or.inr (by simp [hy])
      · exact Or.inr (by simp [hy])
    | gt =>
      simp [insertSorted, hc] at hy
      rcases hy with hy | hy
      · exact Or.inr (by simp [hy])
      · rcases ih hy with hy' | hy'
        · exact Or.inl hy'
        · exact Or.inr (by simp [hy'])

theorem pairwise_insertSorted {x : Str} {l : List Str}
    (hl : List.Pairwise (fun a b => lexLt a b = true) l) :
    List.Pairwise (fun a b => lexLt a b = true) (insertSorted x l) := by
  induction l with
  | nil => simp [insertSorted]
  | cons h t ih =>
    cases hc : lexCmp x h with
    | lt =>
      simp only [insertSorted, hc]
      refine List.Pairwise.cons ?_ hl
      intro b hb
      rcases List.mem_cons.mp hb with hb | hb
      · subst hb
        simp [lexLt, hc]
      · have hhb := (List.pairwise_cons.mp hl).1 b hb
        have : lexCmp h b = .lt := by
          simpa [lexLt] using hhb
        simp [lexLt, lexCmp_lt_trans hc this]
    | eq =>
      simpa [insertSorted, hc] using hl
    | gt =>
      simp only [insertSorted, hc]
      rcases List.pairwise_cons.mp hl with ⟨hhd, htl⟩
      refine List.Pairwise.cons ?_ (ih htl)
      intro b hb
      rcases mem_insertSorted hb with hb | hb
      · subst hb
        simp [lexLt, lexCmp_gt_lt hc]
      · exact hhd b hb

theorem processShortlogLine_invariant (acc : List Str) (line : Str)
    (h1 : ∀ u ∈ acc, is_plausible_github_username u = true)
    (h2 : List.Pairwise (fun a b => lexLt a b = true) acc) :
    (∀ u ∈ processShortlogLine acc line,
      is_plausible_github_username u = true) ∧
    List.Pairwise (fun a b => lexLt a b = true)
      (processShortlogLine acc line) := by
  have hins : ∀ (v : Str), is_plausible_github_username v = true →
      (∀ u ∈ insertSorted v acc, is_plausible_github_username u = true) ∧
      List.Pairwise (fun a b => lexLt a b = true) (insertSorted v acc) := by
    intro v hv
    refine ⟨fun u hu => ?_, pairwise_insertSorted h2⟩
    rcases mem_insertSorted hu with rfl | hu
    · exact hv
    · exact h1 u hu
  simp only [processShortlogLine]
  split
  · exact ⟨h1, h2⟩
  · split
    · exact ⟨h1, h2⟩
    · split
      · next hcond => exact hins _ hcond.2
      · split
        · split
          · split
            · next hpl => exact hins _ hpl
            · exact ⟨h1, h2⟩
          · exact ⟨h1, h2⟩
        · exact ⟨h1, h2⟩

theorem shortlog_fold_invariant (lines : List Str) :
    ∀ (acc : List Str),
    (∀ u ∈ acc, is_plausible_github_username u = true) →
    List.Pairwise (fun a b => lexLt a b = true) acc →
    (∀ u ∈ lines.foldl processShortlogLine acc,
      is_plausible_github_username u = true) ∧
    List.Pairwise (fun a b => lexLt a b = true)
      (lines.foldl processShortlogLine acc) := by
  induction lines with
  | nil => intro acc h1 h2; exact ⟨h1, h2⟩
  | cons l ls ih =>
    intro acc h1 h2
    have hstep := processShortlogLine_invariant acc l h1 h2
    simpa using ih (processShortlogLine acc l) hstep.1 hstep.2

/-- C8: every contributor handle produced by
`get_contributor_usernames_from_shortlog` satisfies the plausibility
pattern (length 1–39, characters `[A-Za-z0-9-]`, no leading or trailing
hyphen), whether taken from the author display name or derived from a
`users.noreply.github.com` email; `"-bad"`, `"bad-"`, a 40-character
string, and `"has space"` are rejected; and the returned list is
deduplicated and lexicographically sorted. -/
theorem C8_contributor_usernames :
    (∀ (git : GitOracle) (res : List Str) (u : Str),
      get_contributor_usernames_from_shortlog git = some res → u ∈ res →
      is_plausible_github_username u = true) ∧
    (∀ (git : GitOracle) (res : List Str),
      get_contributor_usernames_from_shortlog git = some res →
      List.Pairwise (fun a b => lexLt a b = true) res) ∧
    (∀ (git : GitOracle) (res : List Str),
      get_contributor_usernames_from_shortlog git = some res → res.Nodup) ∧
    is_plausible_github_username (lit "-bad") = false ∧
    is_plausible_github_username (lit "bad-") = false ∧
    is_plausible_github_username (List.replicate 40 'a') = false ∧
    is_plausible_github_username (lit "has space") = false := by
  have key : ∀ (git : GitOracle) (res : List Str),
      get_contributor_usernames_from_shortlog git = some res →
      (∀ u ∈ res, is_plausible_github_username u = true) ∧
      List.Pairwise (fun a b => lexLt a b = true) res := by
    intro git res hres
    unfold get_contributor_usernames_from_shortlog at hres
    rcases Option.map_eq_some'.mp hres with ⟨raw, _, hfold⟩
    subst hfold
    exact shortlog_fold_invariant (rustLines raw) [] (by simp) (by simp)
  refine ⟨fun git res u h hu => (key git res h).1 u hu,
    fun git res h => (key git res h).2,
    fun git res h => ?_, by decide, by decide, by decide, by decide⟩
  have hpw := (key git res h).2
  refine List.Pairwise.imp ?_ hpw
  intro a b hab heq
  subst heq
  rw [lexLt_irrefl] at hab
  cases hab

/-- C8 witness: the theorem applied to a concrete shortlog oracle; the
produced handle is plausible. -/
theorem C8_witness :
    is_plausible_github_username (lit "CompEng0001") = true :=
  C8_contributor_usernames.1
    (fun args => if args = [lit "shortlog", lit "-sne", lit "--all"] then
      some (lit "     2\tCompEng0001 <c@example.com>") else none)
    [lit "CompEng0001"] (lit "CompEng0001") (by decide) (by decide)

/-! ### Helper lemmas for the scanner claims -/

theorem processLine_some_fence (src : ContributorsSource) (g : Str)
    (ir : List Str → Str) (st : ScanState) (line : Str) (st' : ScanState)
    (h : fenceTransition st line = some st') :
    processLine src g ir st line = (st', line) := by
  unfold processLine
  rw [h]

theorem processLine_none_inFence (src : ContributorsSource) (g : Str)
    (ir : List Str → Str) (st : ScanState) (line : Str)
    (hft : fenceTransition st line = none) (h : st.in_fence = true) :
    processLine src g ir st line = (st, line) := by
  unfold processLine
  rw [hft]
  simp [h]

theorem processLine_none_normal (src : ContributorsSource) (g : Str)
    (ir : List Str → Str) (st : ScanState) (line : Str)
    (hft : fenceTransition st line = none) (h : st.in_fence = false) :
    processLine src g ir st line =
      (if line.head? = some '\t' ∨ lit "    " <+: line then (st, line)
       else
        match tokenParse (trim line) with
        | some args => (st, emittedBlock src g ir args)
        | none => (st, line)) := by
  unfold processLine
  rw [hft]
  simp [h]

theorem processLine_in_fence_emits (src : ContributorsSource) (g : Str)
    (ir : List Str → Str) (st : ScanState) (line : Str)
    (h : st.in_fence = true) : (processLine src g ir st line).2 = line := by
  cases hft : fenceTransition st line with
  | some st' => rw [processLine_some_fence src g ir st line st' hft]
  | none => rw [processLine_none_inFence src g ir st line hft h]

theorem processLine_none_fst (src : ContributorsSource) (g : Str)
    (ir : List Str → Str) (st : ScanState) (line : Str)
    (hft : fenceTransition st line = none) :
    (processLine src g ir st line).1 = st := by
  cases h : st.in_fence with
  | true => rw [processLine_none_inFence src g ir st line hft h]
  | false =>
    rw [processLine_none_normal src g ir st line hft h]
    split
    · rfl
    · split <;> rfl

theorem fenceTransition_normal (st : ScanState) (line : Str)
    (h : st.in_fence = false) :
    fenceTransition st line =
      (specFenceRun line).map (fun cn => ⟨true, cn.1, cn.2⟩) := by
  have hnf : ¬ (st.in_fence = true) := by simp [h]
  unfold fenceTransition specFenceRun
  cases trimStartSpTab line with
  | nil => rfl
  | cons first restT =>
    dsimp only
    by_cases h1 : first = '`' ∨ first = '~'
    · rw [if_pos h1, if_pos h1]
      by_cases h2 : 3 ≤ ((first :: restT).takeWhile (fun c => c = first)).length
      · rw [if_pos h2, if_pos h2, if_pos hnf]
        rfl
      · rw [if_neg h2, if_neg h2]
        rfl
    · rw [if_neg h1, if_neg h1]
      rfl

theorem fenceTransition_inFence (fc : Char) (fl : Nat) (line : Str)
    (hfc : fc = '`' ∨ fc = '~') (hfl : 3 ≤ fl) :
    fenceTransition ⟨true, fc, fl⟩ line =
      (if (trimStartSpTab line).head? = some fc ∧
          fl ≤ ((trimStartSpTab line).takeWhile (fun x => x = fc)).length then
        some ⟨false, '\x00', 0⟩ else none) := by
  have hnf : ¬ ¬ ((⟨true, fc, fl⟩ : ScanState).in_fence = true) := by simp
  unfold fenceTransition
  cases ht : trimStartSpTab line with
  | nil => simp
  | cons first restT =>
    dsimp only
    by_cases heq : first = fc
    · subst heq
      rw [if_pos hfc]
      by_cases h2 : 3 ≤ ((first :: restT).takeWhile (fun c => c = first)).length
      · rw [if_pos h2, if_neg hnf]
        by_cases h3 : fl ≤ ((first :: restT).takeWhile (fun c => c = first)).length
        · rw [if_pos ⟨rfl, h3⟩, if_pos ⟨rfl, h3⟩]
        · rw [if_neg (fun hc => h3 hc.2), if_neg (fun hc => h3 hc.2)]
      · rw [if_neg h2, if_neg (fun hc => h2 (le_trans hfl hc.2))]
    · have hr : ¬ ((first :: restT).head? = some fc ∧
          fl ≤ ((first :: restT).takeWhile (fun x => x = fc)).length) := by
        intro hc
        exact heq (by simpa using hc.1)
      rw [if_neg hr]
      by_cases h1 : first = '`' ∨ first = '~'
      · rw [if_pos h1]
        by_cases h2 : 3 ≤ ((first :: restT).takeWhile (fun c => c = first)).length
        · rw [if_pos h2, if_neg hnf, if_neg (fun hc => heq hc.1)]
        · rw [if_neg h2]
      · rw [if_neg h1]

theorem fenceTransition_some_inv (st : ScanState) (line : Str)
    (st' : ScanState) (h : fenceTransition st line = some st') :
    stateInv st' := by
  unfold fenceTransition at h
  cases ht : trimStartSpTab line with
  | nil => rw [ht] at h; cases h
  | cons first restT =>
    rw [ht] at h
    dsimp only at h
    by_cases h1 : first = '`' ∨ first = '~'
    · rw [if_pos h1] at h
      by_cases h2 : 3 ≤ ((first :: restT).takeWhile (fun c => c = first)).length
      · rw [if_pos h2] at h
        by_cases h3 : ¬ (st.in_fence = true)
        · rw [if_pos h3] at h
          cases h
          intro _
          exact ⟨h1, h2⟩
        · rw [if_neg h3] at h
          by_cases h4 : first = st.fence_ch ∧
              st.fence_len ≤ ((first :: restT).takeWhile (fun c => c = first)).length
          · rw [if_pos h4] at h
            cases h
            intro hcontra
            cases hcontra
          · rw [if_neg h4] at h
            cases h
      · rw [if_neg h2] at h
        cases h
    · rw [if_neg h1] at h
      cases h

theorem processLine_refines_spec (src : ContributorsSource) (g : Str)
    (ir : List Str → Str) (st : ScanState) (line : Str) (hinv : stateInv st) :
    absState (processLine src g ir st line).1 = specStep (absState st) line := by
  cases hf : st.in_fence with
  | false =>
    have habs : absState st = .normal := by simp [absState, hf]
    rw [habs]
    cases hsr : specFenceRun line with
    | none =>
      have hft : fenceTransition st line = none := by
        rw [fenceTransition_normal st line hf, hsr]; rfl
      rw [processLine_none_fst src g ir st line hft, habs]
      simp [specStep, hsr]
    | some cn =>
      have hft : fenceTransition st line = some ⟨true, cn.1, cn.2⟩ := by
        rw [fenceTransition_normal st line hf, hsr]; rfl
      rw [processLine_some_fence src g ir st line _ hft]
      simp [specStep, hsr, absState]
  | true =>
    have hinv' := hinv hf
    obtain ⟨f, fc, fl⟩ := st
    have hfeq : f = true := hf
    subst hfeq
    obtain ⟨hfc, hfl⟩ := hinv'
    have habs : absState ⟨true, fc, fl⟩ = .inFence fc fl := rfl
    rw [habs]
    by_cases hcl : (trimStartSpTab line).head? = some fc ∧
        fl ≤ ((trimStartSpTab line).takeWhile (fun x => x = fc)).length
    · have hft : fenceTransition ⟨true, fc, fl⟩ line = some ⟨false, '\x00', 0⟩ := by
        rw [fenceTransition_inFence fc fl line hfc hfl, if_pos hcl]
      rw [processLine_some_fence src g ir _ line _ hft]
      dsimp only [specStep]
      rw [if_pos hcl]
      rfl
    · have hft : fenceTransition ⟨true, fc, fl⟩ line = none := by
        rw [fenceTransition_inFence fc fl line hfc hfl, if_neg hcl]
      rw [processLine_none_inFence src g ir _ line hft rfl]
      dsimp only [specStep]
      rw [if_neg hcl]
      rfl

theorem processLine_preserves_inv (src : ContributorsSource) (g : Str)
    (ir : List Str → Str) (st : ScanState) (line : Str) (hinv : stateInv st) :
    stateInv (processLine src g ir st line).1 := by
  cases hft : fenceTransition st line with
  | some st' =>
    rw [processLine_some_fence src g ir st line st' hft]
    exact fenceTransition_some_inv st line st' hft
  | none =>
    rw [processLine_none_fst src g ir st line hft]
    exact hinv

/-- C1: a `{% contributors %}` token on a line inside a fenced code
region is passed through byte-for-byte unchanged (every line processed in
the in-fence state is emitted unchanged), while the same token as the
entire trimmed content of a line processed out of fence (and not indented
as code) is replaced by the blank-delimited roster HTML; the fence
tracking refines the two-state Normal/InFence machine of the
specification exactly (on reachable states, with the invariant
established initially and preserved); and on the spec's P4 scenario the
fenced token is untouched while the token after the closing fence is
replaced. -/
theorem C1_fence_safety :
    (∀ (src : ContributorsSource) (g : Str) (ir : List Str → Str)
      (st : ScanState) (line : Str), st.in_fence = true →
      (processLine src g ir st line).2 = line) ∧
    (∀ (src : ContributorsSource) (g : Str) (ir : List Str → Str)
      (st : ScanState) (line : Str), stateInv st →
      absState (processLine src g ir st line).1 = specStep (absState st) line) ∧
    (∀ (src : ContributorsSource) (g : Str) (ir : List Str → Str)
      (st : ScanState) (line : Str), stateInv st →
      stateInv (processLine src g ir st line).1) ∧
    stateInv state0 ∧
    (∀ (g : Str) (ir : List Str → Str) (st : ScanState) (line : Str),
      st.in_fence = false →
      fenceTransition st line = none →
      ¬ (line.head? = some '\t' ∨ lit "    " <+: line) →
      trim line = lit "{% contributors %}" →
      processLine .git g ir st line = (st, '\n' :: trim g ++ lit "\n\n")) ∧
    replace_contributors_tokens .git (lit "<p>R</p>") (fun _ => [])
        (lit "```\n{% contributors %}\n```\n{% contributors %}\n") =
      lit "```\n{% contributors %}\n```\n\n<p>R</p>\n\n" := by
  refine ⟨processLine_in_fence_emits, processLine_refines_spec,
    processLine_preserves_inv, ?_, ?_, by decide⟩
  · intro h
    cases h
  · intro g ir st line hf hft hind htok
    rw [processLine_none_normal .git g ir st line hft hf, if_neg hind, htok]
    have hparse : tokenParse (lit "{% contributors %}") = some [] := by decide
    rw [hparse]
    rfl

/-- C1 witness: the pass-through conjunct applied to a token line in a
concrete in-fence state, and the replacement conjunct applied to a
concrete token line out of fence. -/
theorem C1_witness :
    (processLine .git (lit "<p>R</p>") (fun _ => []) ⟨true, '`', 3⟩
      (lit "{% contributors %}\n")).2 = lit "{% contributors %}\n" ∧
    processLine .git (lit "<p>R</p>") (fun _ => []) state0
      (lit "{% contributors %}\n") =
      (state0, '\n' :: trim (lit "<p>R</p>") ++ lit "\n\n") :=
  ⟨C1_fence_safety.1 .git (lit "<p>R</p>") (fun _ => []) ⟨true, '`', 3⟩
      (lit "{% contributors %}\n") rfl,
   C1_fence_safety.2.2.2.2.1 (lit "<p>R</p>") (fun _ => []) state0
      (lit "{% contributors %}\n") rfl (by decide) (by decide) (by decide)⟩

theorem processAll_no_close (src : ContributorsSource) (g : Str)
    (ir : List Str → Str) (st : ScanState) (h : st.in_fence = true) :
    ∀ lines : List Str, (∀ l ∈ lines, fenceTransition st l = none) →
    processAll src g ir st lines = (st, lines) := by
  intro lines
  induction lines with
  | nil => intro _; rfl
  | cons l ls ih =>
    intro hall
    have hft : fenceTransition st l = none := hall l (List.mem_cons_self l ls)
    have hpl := processLine_none_inFence src g ir st l hft h
    simp only [processAll, hpl]
    rw [ih (fun x hx => hall x (List.mem_cons_of_mem l hx))]

/-- C10: a fence-opening line with no subsequent matching-or-longer
closing fence of the same character leaves the scanner in the in-fence
state until end of input: every later line, including well-formed
`{% contributors %}` token lines, is emitted unchanged and never
replaced; concretely, an input whose fence is never closed is returned
byte-for-byte. -/
theorem C10_unclosed_fence :
    (∀ (src : ContributorsSource) (g : Str) (ir : List Str → Str)
      (st : ScanState) (lines : List Str), st.in_fence = true →
      (∀ l ∈ lines, fenceTransition st l = none) →
      processAll src g ir st lines = (st, lines)) ∧
    replace_contributors_tokens .git (lit "<p>R</p>") (fun _ => [])
        (lit "````\nx\n```\n{% contributors %}\n") =
      lit "````\nx\n```\n{% contributors %}\n" := by
  refine ⟨?_, by decide⟩
  intro src g ir st lines h hall
  exact processAll_no_close src g ir st h lines hall

/-- C10 witness: the theorem applied in a concrete in-fence state to
concrete lines none of which closes the fence. -/
theorem C10_witness :
    processAll .git (lit "<p>R</p>") (fun _ => []) ⟨true, '`', 4⟩
      [lit "```\n", lit "{% contributors %}\n"] =
      (⟨true, '`', 4⟩, [lit "```\n", lit "{% contributors %}\n"]) :=
  C10_unclosed_fence.1 .git (lit "<p>R</p>") (fun _ => []) ⟨true, '`', 4⟩
    [lit "```\n", lit "{% contributors %}\n"] rfl (by decide)

/-! ### Helper lemmas for the placeholder-substitution claim -/

theorem replaceAllAux_nil (pat rep : Str) : ∀ f, replaceAllAux pat rep f [] = [] := by
  intro f
  cases f <;> rfl

theorem replaceAllAux_fuel (pat rep : Str) : ∀ (f1 : Nat) (s : Str) (f2 : Nat),
    s.length ≤ f1 → s.length ≤ f2 →
    replaceAllAux pat rep f1 s = replaceAllAux pat rep f2 s := by
  intro f1
  induction f1 with
  | zero =>
    intro s f2 h1 _
    have : s = [] := List.length_eq_zero.mp (Nat.le_zero.mp h1)
    subst this
    rw [replaceAllAux_nil, replaceAllAux_nil]
  | succ f ih =>
    intro s f2 h1 h2
    cases s with
    | nil => rw [replaceAllAux_nil, replaceAllAux_nil]
    | cons c rest =>
      cases f2 with
      | zero => simp at h2
      | succ f2' =>
        show replaceAllAux pat rep (f + 1) (c :: rest) =
          replaceAllAux pat rep (f2' + 1) (c :: rest)
        unfold replaceAllAux
        dsimp only
        by_cases hc : pat ≠ [] ∧ pat <+: (c :: rest)
        · rw [if_pos hc, if_pos hc]
          have hpl : 1 ≤ pat.length := List.length_pos.mpr hc.1
          have hd : ((c :: rest).drop pat.length).length ≤ f := by
            simp only [List.length_drop, List.length_cons]
            simp only [List.length_cons] at h1
            omega
          have hd2 : ((c :: rest).drop pat.length).length ≤ f2' := by
            simp only [List.length_drop, List.length_cons]
            simp only [List.length_cons] at h2
            omega
          rw [ih _ f2' hd hd2]
        · rw [if_neg hc, if_neg hc]
          have hr : rest.length ≤ f := by
            simp only [List.length_cons] at h1
            omega
          have hr2 : rest.length ≤ f2' := by
            simp only [List.length_cons] at h2
            omega
          rw [ih _ f2' hr hr2]

theorem replaceAll_eq (pat rep : Str) : ∀ s : Str,
    replaceAll pat rep s =
      (match s with
      | [] => []
      | c :: rest =>
        if pat ≠ [] ∧ pat <+: (c :: rest) then
          rep ++ replaceAll pat rep ((c :: rest).drop pat.length)
        else c :: replaceAll pat rep rest) := by
  intro s
  cases s with
  | nil => rfl
  | cons c rest =>
    show replaceAllAux pat rep (rest.length + 1) (c :: rest) = _
    unfold replaceAllAux
    dsimp only
    by_cases hc : pat ≠ [] ∧ pat <+: (c :: rest)
    · rw [if_pos hc, if_pos hc]
      congr 1
      apply replaceAllAux_fuel
      · simp only [List.length_drop, List.length_cons]
        have : 1 ≤ pat.length := List.length_pos.mpr hc.1
        omega
      · exact le_rfl
    · rw [if_neg hc, if_neg hc]
      rfl

theorem replaceAll_step_pos (pat rep : Str) (c : Char) (rest : Str)
    (hc : pat ≠ [] ∧ pat <+: (c :: rest)) :
    replaceAll pat rep (c :: rest) =
      rep ++ replaceAll pat rep ((c :: rest).drop pat.length) := by
  rw [replaceAll_eq pat rep (c :: rest)]
  dsimp only
  rw [if_pos hc]

theorem replaceAll_step_neg (pat rep : Str) (c : Char) (rest : Str)
    (hc : ¬ (pat ≠ [] ∧ pat <+: (c :: rest))) :
    replaceAll pat rep (c :: rest) = c :: replaceAll pat rep rest := by
  rw [replaceAll_eq pat rep (c :: rest)]
  dsimp only
  rw [if_neg hc]

theorem replaceAll_brace_free (pat rep : Str) (hpat : pat.head? = some '{') :
    ∀ (s r : Str), (∀ c ∈ s, c ≠ '{') →
    replaceAll pat rep (s ++ r) = s ++ replaceAll pat rep r := by
  intro s
  induction s with
  | nil => intro r _; rfl
  | cons c s' ih =>
    intro r hs
    have hnp : ¬ (pat ≠ [] ∧ pat <+: (c :: (s' ++ r))) := by
      rintro ⟨hne, hp⟩
      cases pat with
      | nil => exact hne rfl
      | cons p ps =>
        have hpc : p = '{' := by simpa using hpat
        have : p = c := (List.cons_prefix_cons.mp hp).1
        exact hs c (List.mem_cons_self c s') (by rw [← this, hpc])
    rw [List.cons_append, replaceAll_step_neg pat rep c (s' ++ r) hnp]
    rw [ih r (fun x hx => hs x (List.mem_cons_of_mem c hx))]
    rfl

theorem replaceAll_skip (pat rep : Str) : ∀ (t r : Str),
    (∀ k, k < t.length → ¬ pat <+: (t.drop k ++ r)) →
    replaceAll pat rep (t ++ r) = t ++ replaceAll pat rep r := by
  intro t
  induction t with
  | nil => intro r _; rfl
  | cons c t' ih =>
    intro r hk
    have h0 : ¬ pat <+: (c :: t' ++ r) := by
      have := hk 0 (by simp)
      simpa using this
    rw [List.cons_append, replaceAll_step_neg pat rep c (t' ++ r)
      (fun hc => h0 hc.2)]
    rw [ih r (fun k hklt => by
      have := hk (k + 1) (by simpa using Nat.succ_lt_succ hklt)
      simpa using this)]
    rfl

theorem not_prefix_append (a b r : Str) (h1 : ¬ a <+: b) (h2 : ¬ b <+: a) :
    ¬ a <+: (b ++ r) := by
  intro h
  have hb : b <+: b ++ r := List.prefix_append b r
  rcases List.prefix_or_prefix_of_prefix h hb with hab | hba
  · exact h1 hab
  · exact h2 hba

theorem tokens_no_overlap : ∀ p ∈ sixTokens, ∀ t ∈ sixTokens, p ≠ t →
    ∀ k, k < t.length → ¬ p <+: t.drop k ∧ ¬ t.drop k <+: p := by decide

theorem replaceAll_other_token (p t : Str) (hp : p ∈ sixTokens)
    (ht : t ∈ sixTokens) (hne : p ≠ t) (rep r : Str) :
    replaceAll p rep (t ++ r) = t ++ replaceAll p rep r :=
  replaceAll_skip p rep t r (fun k hk =>
    not_prefix_append p (t.drop k) r
      (tokens_no_overlap p hp t ht hne k hk).1
      (tokens_no_overlap p hp t ht hne k hk).2)

theorem replaceAll_match (pat rep r : Str) (hne : pat ≠ []) :
    replaceAll pat rep (pat ++ r) = rep ++ replaceAll pat rep r := by
  cases pat with
  | nil => exact absurd rfl hne
  | cons p0 ptail =>
    have hpre : (p0 :: ptail) <+: (p0 :: (ptail ++ r)) := by
      rw [← List.cons_append]
      exact List.prefix_append _ _
    rw [List.cons_append, replaceAll_step_pos (p0 :: ptail) rep p0 (ptail ++ r)
      ⟨hne, hpre⟩]
    congr 1
    rw [← List.cons_append, List.drop_left]

theorem replaceAll_not_occurring (pat rep : Str) : ∀ s, ¬ pat <:+: s →
    replaceAll pat rep s = s := by
  intro s
  induction s with
  | nil => intro _; rfl
  | cons c s' ih =>
    intro h
    have hnp : ¬ (pat ≠ [] ∧ pat <+: (c :: s')) := by
      rintro ⟨_, hp⟩
      exact h hp.isInfix
    rw [replaceAll_step_neg pat rep c s' hnp]
    rw [ih (fun hinf => h (hinf.trans (List.suffix_cons c s').isInfix))]

theorem render_template_litseg (str X hash long_hash tag date sep branch : Str)
    (hstr : ∀ c ∈ str, c ≠ '{') :
    render_template (str ++ X) hash long_hash tag date sep branch =
      str ++ render_template X hash long_hash tag date sep branch := by
  unfold render_template
  rw [replaceAll_brace_free (lit "{{hash}}") hash rfl str X hstr,
    replaceAll_brace_free (lit "{{long}}") long_hash rfl str _ hstr,
    replaceAll_brace_free (lit "{{tag}}") tag rfl str _ hstr,
    replaceAll_brace_free (lit "{{date}}") date rfl str _ hstr,
    replaceAll_brace_free (lit "{{sep}}") sep rfl str _ hstr,
    replaceAll_brace_free (lit "{{branch}}") branch rfl str _ hstr]

theorem render_template_hashseg (X hash long_hash tag date sep branch : Str)
    (hv : ∀ c ∈ hash, c ≠ '{') :
    render_template (lit "{{hash}}" ++ X) hash long_hash tag date sep branch =
      hash ++ render_template X hash long_hash tag date sep branch := by
  unfold render_template
  rw [replaceAll_match (lit "{{hash}}") hash X (by decide),
    replaceAll_brace_free (lit "{{long}}") long_hash rfl hash _ hv,
    replaceAll_brace_free (lit "{{tag}}") tag rfl hash _ hv,
    replaceAll_brace_free (lit "{{date}}") date rfl hash _ hv,
    replaceAll_brace_free (lit "{{sep}}") sep rfl hash _ hv,
    replaceAll_brace_free (lit "{{branch}}") branch rfl hash _ hv]

theorem render_template_longseg (X hash long_hash tag date sep branch : Str)
    (hv : ∀ c ∈ long_hash, c ≠ '{') :
    render_template (lit "{{long}}" ++ X) hash long_hash tag date sep branch =
      long_hash ++ render_template X hash long_hash tag date sep branch := by
  unfold render_template
  rw [replaceAll_other_token (lit "{{hash}}") (lit "{{long}}") (by decide)
      (by decide) (by decide) hash X,
    replaceAll_match (lit "{{long}}") long_hash _ (by decide),
    replaceAll_brace_free (lit "{{tag}}") tag rfl long_hash _ hv,
    replaceAll_brace_free (lit "{{date}}") date rfl long_hash _ hv,
    replaceAll_brace_free (lit "{{sep}}") sep rfl long_hash _ hv,
    replaceAll_brace_free (lit "{{branch}}") branch rfl long_hash _ hv]

theorem render_template_tagseg (X hash long_hash tag date sep branch : Str)
    (hv : ∀ c ∈ tag, c ≠ '{') :
    render_template (lit "{{tag}}" ++ X) hash long_hash tag date sep branch =
      tag ++ render_template X hash long_hash tag date sep branch := by
  unfold render_template
  rw [replaceAll_other_token (lit "{{hash}}") (lit "{{tag}}") (by decide)
      (by decide) (by decide) hash X,
    replaceAll_other_token (lit "{{long}}") (lit "{{tag}}") (by decide)
      (by decide) (by decide) long_hash _,
    replaceAll_match (lit "{{tag}}") tag _ (by decide),
    replaceAll_brace_free (lit "{{date}}") date rfl tag _ hv,
    replaceAll_brace_free (lit "{{sep}}") sep rfl tag _ hv,
    replaceAll_brace_free (lit "{{branch}}") branch rfl tag _ hv]

theorem render_template_dateseg (X hash long_hash tag date sep branch : Str)
    (hv : ∀ c ∈ date, c ≠ '{') :
    render_template (lit "{{date}}" ++ X) hash long_hash tag date sep branch =
      date ++ render_template X hash long_hash tag date sep branch := by
  unfold render_template
  rw [replaceAll_other_token (lit "{{hash}}") (lit "{{date}}") (by decide)
      (by decide) (by decide) hash X,
    replaceAll_other_token (lit "{{long}}") (lit "{{date}}") (by decide)
      (by decide) (by decide) long_hash _,
    replaceAll_other_token (lit "{{tag}}") (lit "{{date}}") (by decide)
      (by decide) (by decide) tag _,
    replaceAll_match (lit "{{date}}") date _ (by decide),
    replaceAll_brace_free (lit "{{sep}}") sep rfl date _ hv,
    replaceAll_brace_free (lit "{{branch}}") branch rfl date _ hv]

theorem render_template_sepseg (X hash long_hash tag date sep branch : Str)
    (hv : ∀ c ∈ sep, c ≠ '{') :
    render_template (lit "{{sep}}" ++ X) hash long_hash tag date sep branch =
      sep ++ render_template X hash long_hash tag date sep branch := by
  unfold render_template
  rw [replaceAll_other_token (lit "{{hash}}") (lit "{{sep}}") (by decide)
      (by decide) (by decide) hash X,
    replaceAll_other_token (lit "{{long}}") (lit "{{sep}}") (by decide)
      (by decide) (by decide) long_hash _,
    replaceAll_other_token (lit "{{tag}}") (lit "{{sep}}") (by decide)
      (by decide) (by decide) tag _,
    replaceAll_other_token (lit "{{date}}") (lit "{{sep}}") (by decide)
      (by decide) (by decide) date _,
    replaceAll_match (lit "{{sep}}") sep _ (by decide),
    replaceAll_brace_free (lit "{{branch}}") branch rfl sep _ hv]

theorem render_template_branchseg (X hash long_hash tag date sep branch : Str) :
    render_template (lit "{{branch}}" ++ X) hash long_hash tag date sep branch =
      branch ++ render_template X hash long_hash tag date sep branch := by
  unfold render_template
  rw [replaceAll_other_token (lit "{{hash}}") (lit "{{branch}}") (by decide)
      (by decide) (by decide) hash X,
    replaceAll_other_token (lit "{{long}}") (lit "{{branch}}") (by decide)
      (by decide) (by decide) long_hash _,
    replaceAll_other_token (lit "{{tag}}") (lit "{{branch}}") (by decide)
      (by decide) (by decide) tag _,
    replaceAll_other_token (lit "{{date}}") (lit "{{branch}}") (by decide)
      (by decide) (by decide) date _,
    replaceAll_other_token (lit "{{sep}}") (lit "{{branch}}") (by decide)
      (by decide) (by decide) sep _,
    replaceAll_match (lit "{{branch}}") branch _ (by decide)]

theorem render_template_nil (hash long_hash tag date sep branch : Str) :
    render_template [] hash long_hash tag date sep branch = [] := rfl

theorem render_template_segs (hash long_hash tag date sep branch : Str)
    (hh : ∀ c ∈ hash, c ≠ '{') (hl : ∀ c ∈ long_hash, c ≠ '{')
    (ht : ∀ c ∈ tag, c ≠ '{') (hd : ∀ c ∈ date, c ≠ '{')
    (hs : ∀ c ∈ sep, c ≠ '{') (hb : ∀ c ∈ branch, c ≠ '{') :
    ∀ segs : List TmplSeg,
    (∀ s, TmplSeg.litSeg s ∈ segs → ∀ c ∈ s, c ≠ '{') →
    render_template (flattenSegs segs) hash long_hash tag date sep branch =
      (segs.map (segSubst hash long_hash tag date sep branch)).flatten := by
  intro segs
  induction segs with
  | nil => intro _; rfl
  | cons seg rest ih =>
    intro hlits
    have hrest : ∀ s, TmplSeg.litSeg s ∈ rest → ∀ c ∈ s, c ≠ '{' :=
      fun s hsm => hlits s (List.mem_cons_of_mem seg hsm)
    have hflat : flattenSegs (seg :: rest) = segText seg ++ flattenSegs rest := by
      simp [flattenSegs]
    rw [hflat]
    have hmap : ((seg :: rest).map
        (segSubst hash long_hash tag date sep branch)).flatten =
        segSubst hash long_hash tag date sep branch seg ++
        (rest.map (segSubst hash long_hash tag date sep branch)).flatten := by
      simp
    rw [hmap]
    cases seg with
    | litSeg s =>
      rw [show segText (TmplSeg.litSeg s) = s from rfl,
        render_template_litseg s _ hash long_hash tag date sep branch
          (hlits s (List.mem_cons_self _ _)),
        ih hrest]
      rfl
    | hashTok => rw [show segText TmplSeg.hashTok = lit "{{hash}}" from rfl,
        render_template_hashseg _ hash long_hash tag date sep branch hh, ih hrest]; rfl
    | longTok => rw [show segText TmplSeg.longTok = lit "{{long}}" from rfl,
        render_template_longseg _ hash long_hash tag date sep branch hl, ih hrest]; rfl
    | tagTok => rw [show segText TmplSeg.tagTok = lit "{{tag}}" from rfl,
        render_template_tagseg _ hash long_hash tag date sep branch ht, ih hrest]; rfl
    | dateTok => rw [show segText TmplSeg.dateTok = lit "{{date}}" from rfl,
        render_template_dateseg _ hash long_hash tag date sep branch hd, ih hrest]; rfl
    | sepTok => rw [show segText TmplSeg.sepTok = lit "{{sep}}" from rfl,
        render_template_sepseg _ hash long_hash tag date sep branch hs, ih hrest]; rfl
    | branchTok => rw [show segText TmplSeg.branchTok = lit "{{branch}}" from rfl,
        render_template_branchseg _ hash long_hash tag date sep branch, ih hrest]; rfl

/-- C5 counterexample: the template `"{{branch}}"` contains only
recognized placeholders, yet with a caller-supplied branch string equal to
`"{{hash}}"` the result is `"{{hash}}"` — a recognized `{{...}}` token
remains in the output (and, had a later-replaced token been supplied to an
earlier-replaced placeholder, it would even be expanded), so the claim as
stated is false. -/
theorem C5_counterexample :
    render_template (flattenSegs [TmplSeg.branchTok]) [] [] [] [] []
      (lit "{{hash}}") = lit "{{hash}}" ∧
    render_template (lit "{{hash}}") (lit "{{branch}}") [] [] [] [] (lit "B") =
      lit "B" := by
  constructor
  · decide
  · decide

/-- C5 (amended): placeholder substitution is a literal replacement of
the six fixed tokens by the caller-supplied strings, *provided the
supplied strings contain no `'{'`*: every template built only from
recognized placeholder tokens and brace-free literal pieces renders to
the corresponding concatenation of values and literals (each placeholder
replaced exactly once, independent of pass order, with no recursive or
nested expansion), and the result then contains no recognized `{{...}}`
token; a template containing no recognized token — such as one whose only
placeholder is `{{unknown}}` — is passed through unchanged. -/
theorem C5_render_template :
    (∀ (hash long_hash tag date sep branch : Str),
      (∀ c ∈ hash, c ≠ '{') → (∀ c ∈ long_hash, c ≠ '{') →
      (∀ c ∈ tag, c ≠ '{') → (∀ c ∈ date, c ≠ '{') →
      (∀ c ∈ sep, c ≠ '{') → (∀ c ∈ branch, c ≠ '{') →
      ∀ segs : List TmplSeg, (∀ s, TmplSeg.litSeg s ∈ segs → ∀ c ∈ s, c ≠ '{') →
      render_template (flattenSegs segs) hash long_hash tag date sep branch =
        (segs.map (segSubst hash long_hash tag date sep branch)).flatten) ∧
    (∀ (hash long_hash tag date sep branch : Str),
      (∀ c ∈ hash, c ≠ '{') → (∀ c ∈ long_hash, c ≠ '{') →
      (∀ c ∈ tag, c ≠ '{') → (∀ c ∈ date, c ≠ '{') →
      (∀ c ∈ sep, c ≠ '{') → (∀ c ∈ branch, c ≠ '{') →
      ∀ segs : List TmplSeg, (∀ s, TmplSeg.litSeg s ∈ segs → ∀ c ∈ s, c ≠ '{') →
      ∀ tok ∈ sixTokens,
      ¬ tok <:+: render_template (flattenSegs segs) hash long_hash tag date sep branch) ∧
    (∀ (tmpl hash long_hash tag date sep branch : Str),
      (∀ tok ∈ sixTokens, ¬ tok <:+: tmpl) →
      render_template tmpl hash long_hash tag date sep branch = tmpl) ∧
    render_template (lit "x={{hash}} y={{unknown}}") (lit "h") (lit "lh")
      (lit "t") (lit "d") (lit "|") (lit "b") = lit "x=h y={{unknown}}" := by
  have hmain := render_template_segs
  refine ⟨fun hash long_hash tag date sep branch hh hl ht hd hs hb segs hlits =>
      hmain hash long_hash tag date sep branch hh hl ht hd hs hb segs hlits,
    ?_, ?_, by decide⟩
  · intro hash long_hash tag date sep branch hh hl ht hd hs hb segs hlits tok htok hinf
    rw [hmain hash long_hash tag date sep branch hh hl ht hd hs hb segs hlits] at hinf
    have hbrace : ∀ c ∈ ((segs.map (segSubst hash long_hash tag date sep branch)).flatten),
        c ≠ '{' := by
      intro c hc
      rcases List.mem_flatten.mp hc with ⟨piece, hpm, hcp⟩
      rcases List.mem_map.mp hpm with ⟨seg, hsegm, hpe⟩
      subst hpe
      cases seg with
      | litSeg s => exact hlits s hsegm c hcp
      | hashTok => exact hh c hcp
      | longTok => exact hl c hcp
      | tagTok => exact ht c hcp
      | dateTok => exact hd c hcp
      | sepTok => exact hs c hcp
      | branchTok => exact hb c hcp
    have hbr : '{' ∈ tok := by
      have : ∀ t ∈ sixTokens, '{' ∈ t := by decide
      exact this tok htok
    exact hbrace '{' (hinf.subset hbr) rfl
  · intro tmpl hash long_hash tag date sep branch hno
    unfold render_template
    rw [replaceAll_not_occurring (lit "{{hash}}") hash tmpl
        (hno (lit "{{hash}}") (by decide)),
      replaceAll_not_occurring (lit "{{long}}") long_hash tmpl
        (hno (lit "{{long}}") (by decide)),
      replaceAll_not_occurring (lit "{{tag}}") tag tmpl
        (hno (lit "{{tag}}") (by decide)),
      replaceAll_not_occurring (lit "{{date}}") date tmpl
        (hno (lit "{{date}}") (by decide)),
      replaceAll_not_occurring (lit "{{sep}}") sep tmpl
        (hno (lit "{{sep}}") (by decide)),
      replaceAll_not_occurring (lit "{{branch}}") branch tmpl
        (hno (lit "{{branch}}") (by decide))]

/-- C5 witness: the amended theorem applied to a concrete segment
template and brace-free values. -/
theorem C5_witness :
    render_template (flattenSegs [TmplSeg.litSeg (lit "commit: "),
      TmplSeg.hashTok]) (lit "abc") [] [] [] [] [] = lit "commit: abc" := by
  have h := C5_render_template.1 (lit "abc") [] [] [] [] []
    (by decide) (by decide) (by decide) (by decide) (by decide) (by decide)
    [TmplSeg.litSeg (lit "commit: "), TmplSeg.hashTok]
    (by
      intro s hsm
      simp only [List.mem_cons, List.mem_singleton] at hsm
      rcases hsm with hsm | hsm | hsm
      · cases hsm
        decide
      · cases hsm
      · cases hsm)
  exact h.trans (by decide)

/-! ### Helper lemmas for the frame claim -/

mutual

theorem collectPathless_decorate (git : GitOracle) (lo : Int) (cfg : RunCfg)
    (ir : List Str → Str) :
    ∀ item : BookItem,
    collectPathless (decorateItem git lo cfg ir item) = collectPathless item
  | .chapter n c p subs => by
    cases p with
    | none =>
      simp only [decorateItem, runChapter, collectPathless]
      rw [collectPathlessList_decorate git lo cfg ir subs]
    | some q =>
      simp only [decorateItem, runChapter, collectPathless]
      rw [collectPathlessList_decorate git lo cfg ir subs]
  | .separator => rfl
  | .partTitle t => rfl

theorem collectPathlessList_decorate (git : GitOracle) (lo : Int)
    (cfg : RunCfg) (ir : List Str → Str) :
    ∀ items : List BookItem,
    collectPathlessList (decorateItems git lo cfg ir items) =
      collectPathlessList items
  | [] => rfl
  | i :: is => by
    simp only [decorateItems, collectPathlessList]
    rw [collectPathless_decorate git lo cfg ir i,
      collectPathlessList_decorate git lo cfg ir is]

end

/-- C9: a chapter whose source path is absent is left byte-for-byte
unchanged by the preprocessor's book walk — its content is not decorated
and no token in it is touched — at any depth of the tree, even while
sibling chapters with paths are decorated. -/
theorem C9_pathless_unchanged :
    (∀ (git : GitOracle) (lo : Int) (cfg : RunCfg) (ir : List Str → Str)
      (n c : Str) (subs : List BookItem),
      decorateItem git lo cfg ir (.chapter n c none subs) =
        .chapter n c none (decorateItems git lo cfg ir subs)) ∧
    (∀ (git : GitOracle) (lo : Int) (cfg : RunCfg) (ir : List Str → Str)
      (item : BookItem),
      collectPathless (decorateItem git lo cfg ir item) = collectPathless item) ∧
    (∀ (git : GitOracle) (lo : Int) (cfg : RunCfg) (ir : List Str → Str)
      (items : List BookItem),
      collectPathlessList (decorateItems git lo cfg ir items) =
        collectPathlessList items) :=
  ⟨fun git lo cfg ir n c subs => by simp only [decorateItem, runChapter],
   collectPathless_decorate, collectPathlessList_decorate⟩

/-! ### Line-splitting infrastructure for the idempotence claim -/

theorem splitInclusiveAux_flatten : ∀ (s acc : Str),
    (splitInclusiveAux s acc).flatten = acc.reverse ++ s := by
  intro s
  induction s with
  | nil =>
    intro acc
    by_cases h : acc = []
    · simp [splitInclusiveAux, h]
    · simp [splitInclusiveAux, h]
  | cons c cs ih =>
    intro acc
    by_cases h : c = '\n'
    · subst h
      simp [splitInclusiveAux, ih]
    · simp only [splitInclusiveAux, if_neg h]
      rw [ih (c :: acc)]
      simp

theorem splitInclusive_flatten (s : Str) : (splitInclusive s).flatten = s := by
  unfold splitInclusive
  rw [splitInclusiveAux_flatten]
  rfl

theorem splitInclusiveAux_step_nl (x acc : Str) :
    splitInclusiveAux ('\n' :: x) acc =
      (acc.reverse ++ ['\n']) :: splitInclusiveAux x [] := by
  simp [splitInclusiveAux]

theorem splitInclusiveAux_step (x acc : Str) (c : Char) (hc : ¬ (c = '\n')) :
    splitInclusiveAux (c :: x) acc = splitInclusiveAux x (c :: acc) := by
  simp [splitInclusiveAux, hc]

theorem splitInclusiveAux_append_nl : ∀ (a : Str) (acc b : Str),
    a ≠ [] → a.getLast? = some '\n' →
    splitInclusiveAux (a ++ b) acc =
      splitInclusiveAux a acc ++ splitInclusiveAux b [] := by
  intro a
  induction a with
  | nil => intro acc b h _; exact absurd rfl h
  | cons c cs ih =>
    intro acc b _ hlast
    by_cases hc : c = '\n'
    · subst hc
      rw [List.cons_append, splitInclusiveAux_step_nl (cs ++ b) acc,
        splitInclusiveAux_step_nl cs acc]
      cases hcs : cs with
      | nil => simp [splitInclusiveAux]
      | cons d ds =>
        rw [← hcs]
        have hcs_ne : cs ≠ [] := by rw [hcs]; simp
        have hlast' : cs.getLast? = some '\n' := by
          rw [hcs] at hlast ⊢
          rw [List.getLast?_cons_cons] at hlast
          exact hlast
        rw [ih [] b hcs_ne hlast']
        simp
    · have hcs_ne : cs ≠ [] := by
        intro hx
        rw [hx] at hlast
        simp at hlast
        exact hc hlast
      obtain ⟨d, ds, hcs⟩ := List.exists_cons_of_ne_nil hcs_ne
      have hlast' : cs.getLast? = some '\n' := by
        rw [hcs] at hlast ⊢
        rw [List.getLast?_cons_cons] at hlast
        exact hlast
      rw [List.cons_append, splitInclusiveAux_step (cs ++ b) acc c hc,
        splitInclusiveAux_step cs acc c hc]
      exact ih (c :: acc) b hcs_ne hlast'

theorem splitInclusive_append_nl (a b : Str) (h : a ≠ [])
    (hlast : a.getLast? = some '\n') :
    splitInclusive (a ++ b) = splitInclusive a ++ splitInclusive b :=
  splitInclusiveAux_append_nl a [] b h hlast

theorem splitInclusiveAux_no_nl : ∀ (s acc : Str), '\n' ∉ s →
    (s ≠ [] ∨ acc ≠ []) → splitInclusiveAux s acc = [acc.reverse ++ s] := by
  intro s
  induction s with
  | nil =>
    intro acc _ hne
    rcases hne with hne | hne
    · exact absurd rfl hne
    · simp [splitInclusiveAux, hne]
  | cons c cs ih =>
    intro acc hnl _
    have hc : ¬ (c = '\n') := fun hx => hnl (by rw [hx]; exact List.mem_cons_self _ _)
    simp only [splitInclusiveAux, if_neg hc]
    rw [ih (c :: acc) (fun hx => hnl (List.mem_cons_of_mem c hx)) (Or.inr (by simp))]
    simp

theorem splitInclusive_open (s : Str) (hnl : '\n' ∉ s) (hne : s ≠ []) :
    splitInclusive s = [s] := by
  unfold splitInclusive
  rw [splitInclusiveAux_no_nl s [] hnl (Or.inl hne)]
  rfl

theorem splitInclusiveAux_closed_join : ∀ (m : Str) (acc f : Str), '\n' ∉ m →
    splitInclusiveAux (m ++ '\n' :: f) acc =
      (acc.reverse ++ m ++ ['\n']) :: splitInclusiveAux f [] := by
  intro m
  induction m with
  | nil =>
    intro acc f _
    simp [splitInclusiveAux]
  | cons c cs ih =>
    intro acc f hnl
    have hc : ¬ (c = '\n') := fun hx => hnl (by rw [hx]; exact List.mem_cons_self _ _)
    rw [List.cons_append, splitInclusiveAux_step (cs ++ '\n' :: f) acc c hc]
    rw [ih (c :: acc) f (fun hx => hnl (List.mem_cons_of_mem c hx))]
    simp

theorem splitInclusive_closed_join (m f : Str) (hnl : '\n' ∉ m) :
    splitInclusive (m ++ '\n' :: f) = (m ++ ['\n']) :: splitInclusive f := by
  unfold splitInclusive
  rw [splitInclusiveAux_closed_join m [] f hnl]
  rfl

theorem splitInclusive_cons_nl (f : Str) :
    splitInclusive ('\n' :: f) = ['\n'] :: splitInclusive f := by
  have := splitInclusive_closed_join [] f (by simp)
  simpa using this

theorem splitInclusive_closed (m : Str) (hnl : '\n' ∉ m) :
    splitInclusive (m ++ ['\n']) = [m ++ ['\n']] := by
  have := splitInclusive_closed_join m [] hnl
  simpa [splitInclusive, splitInclusiveAux] using this

theorem validChain_cons (l : Str) (ls : List Str) (hl : ClosedLine l)
    (hls : ValidChain ls) : ValidChain (l :: ls) := by
  cases ls with
  | nil => exact Or.inl hl
  | cons l' ls' => exact ⟨hl, hls⟩

theorem splitInclusiveAux_valid : ∀ (s acc : Str), '\n' ∉ acc →
    ValidChain (splitInclusiveAux s acc) := by
  intro s
  induction s with
  | nil =>
    intro acc hacc
    by_cases h : acc = []
    · simp [splitInclusiveAux, h, ValidChain]
    · simp only [splitInclusiveAux, if_neg h]
      exact Or.inr ⟨by simpa using h, by simpa using hacc⟩
  | cons c cs ih =>
    intro acc hacc
    by_cases hc : c = '\n'
    · subst hc
      simp only [splitInclusiveAux, if_pos rfl]
      refine validChain_cons _ _ ⟨acc.reverse, rfl, by simpa using hacc⟩
        (ih [] (by simp))
    · simp only [splitInclusiveAux, if_neg hc]
      exact ih (c :: acc) (by
        intro hx
        rcases List.mem_cons.mp hx with hx | hx
        · exact hc hx.symm
        · exact hacc hx)

theorem splitInclusive_valid (s : Str) : ValidChain (splitInclusive s) :=
  splitInclusiveAux_valid s [] (by simp)

/-! ### Scanner-rescan infrastructure for the idempotence claim -/

theorem processAll_cons (src : ContributorsSource) (g : Str)
    (ir : List Str → Str) (st : ScanState) (l : Str) (ls : List Str) :
    processAll src g ir st (l :: ls) =
      ((processAll src g ir (processLine src g ir st l).1 ls).1,
       (processLine src g ir st l).2 ::
         (processAll src g ir (processLine src g ir st l).1 ls).2) := rfl

theorem processAll_append (src : ContributorsSource) (g : Str)
    (ir : List Str → Str) : ∀ (xs ys : List Str) (st : ScanState),
    processAll src g ir st (xs ++ ys) =
      ((processAll src g ir (processAll src g ir st xs).1 ys).1,
       (processAll src g ir st xs).2 ++
         (processAll src g ir (processAll src g ir st xs).1 ys).2) := by
  intro xs
  induction xs with
  | nil => intro ys st; rfl
  | cons x xs' ih =>
    intro ys st
    rw [List.cons_append, processAll_cons, processAll_cons,
      ih ys (processLine src g ir st x).1]
    rfl

theorem inert_any (src : ContributorsSource) (g : Str) (ir : List Str → Str)
    (l : Str) (hin : inert src g ir l) :
    ∀ st : ScanState, st.in_fence = false → processLine src g ir st l = (st, l) := by
  intro st hf
  unfold inert at hin
  have hft0 : fenceTransition state0 l = fenceTransition st l := by
    rw [fenceTransition_normal state0 l rfl, fenceTransition_normal st l hf]
  cases hft : fenceTransition st l with
  | some st' =>
    rw [hft] at hft0
    rw [processLine_some_fence src g ir state0 l st' hft0] at hin
    have : st' = state0 := congrArg Prod.fst hin
    subst this
    rw [processLine_some_fence src g ir st l state0 hft]
    have h1 : fenceTransition st l = none := by
      rw [fenceTransition_normal st l hf] at hft ⊢
      cases hsr : specFenceRun l with
      | none => rfl
      | some cn =>
        rw [hsr] at hft
        simp at hft
        exact absurd (congrArg ScanState.in_fence hft) (by simp [state0])
    rw [h1] at hft
    cases hft
  | none =>
    rw [hft] at hft0
    rw [processLine_none_normal src g ir state0 l hft0 rfl] at hin
    rw [processLine_none_normal src g ir st l hft hf]
    split at hin
    · next hcond => rw [if_pos hcond]
    · next hcond =>
      rw [if_neg hcond]
      cases htp : tokenParse (trim l) with
      | none => rfl
      | some args =>
        rw [htp] at hin
        simp only at hin
        have hemit : emittedBlock src g ir args = l := congrArg Prod.snd hin
        dsimp only
        rw [hemit]

theorem processAll_all_pass (src : ContributorsSource) (g : Str)
    (ir : List Str → Str) : ∀ (ls : List Str),
    (∀ l ∈ ls, inert src g ir l) →
    ∀ st : ScanState, (processAll src g ir st ls).2 = ls := by
  intro ls
  induction ls with
  | nil => intro _ st; rfl
  | cons l ls' ih =>
    intro hall st
    simp only [processAll]
    cases hf : st.in_fence with
    | true =>
      rw [processLine_in_fence_emits src g ir st l hf]
      rw [ih (fun x hx => hall x (List.mem_cons_of_mem l hx)) _]
    | false =>
      rw [inert_any src g ir l (hall l (List.mem_cons_self l ls')) st hf]
      rw [ih (fun x hx => hall x (List.mem_cons_of_mem l hx)) _]

theorem processAll_all_inert_normal (src : ContributorsSource) (g : Str)
    (ir : List Str → Str) : ∀ (ls : List Str),
    (∀ l ∈ ls, inert src g ir l) →
    ∀ st : ScanState, st.in_fence = false →
    processAll src g ir st ls = (st, ls) := by
  intro ls
  induction ls with
  | nil => intro _ st _; rfl
  | cons l ls' ih =>
    intro hall st hf
    simp only [processAll]
    rw [inert_any src g ir l (hall l (List.mem_cons_self l ls')) st hf]
    rw [ih (fun x hx => hall x (List.mem_cons_of_mem l hx)) st hf]

theorem inert_blank (src : ContributorsSource) (g : Str)
    (ir : List Str → Str) : inert src g ir ['\n'] := rfl

theorem processLine_cases (src : ContributorsSource) (g : Str)
    (ir : List Str → Str) (st : ScanState) (l : Str) :
    (processLine src g ir st l).2 = l ∨
    (st.in_fence = false ∧ (processLine src g ir st l).1 = st ∧
      ∃ args, tokenParse (trim l) = some args ∧
        (processLine src g ir st l).2 = emittedBlock src g ir args) := by
  cases hft : fenceTransition st l with
  | some st' =>
    left
    rw [processLine_some_fence src g ir st l st' hft]
  | none =>
    cases hf : st.in_fence with
    | true =>
      left
      rw [processLine_none_inFence src g ir st l hft hf]
    | false =>
      rw [processLine_none_normal src g ir st l hft hf]
      split
      · left; rfl
      · cases htp : tokenParse (trim l) with
        | some args => exact Or.inr ⟨rfl, rfl, args, rfl, rfl⟩
        | none => left; rfl

theorem emittedBlock_shape (src : ContributorsSource) (g : Str)
    (ir : List Str → Str) (args : List Str) :
    emittedBlock src g ir args =
      ('\n' :: trim (tokenHtml src g ir args) ++ ['\n']) ++ ['\n'] := by
  simp [emittedBlock, lit]

theorem emittedBlock_ne_nil (src : ContributorsSource) (g : Str)
    (ir : List Str → Str) (args : List Str) :
    emittedBlock src g ir args ≠ [] := by
  rw [emittedBlock_shape]
  simp

theorem emittedBlock_getLast (src : ContributorsSource) (g : Str)
    (ir : List Str → Str) (args : List Str) :
    (emittedBlock src g ir args).getLast? = some '\n' := by
  rw [emittedBlock_shape]
  rw [List.getLast?_concat]

theorem dropWhile_append_split (p : Char → Bool) : ∀ (a b : Str),
    List.dropWhile p (a ++ b) =
      if List.dropWhile p a = [] then List.dropWhile p b
      else List.dropWhile p a ++ b := by
  intro a
  induction a with
  | nil => intro b; simp
  | cons c a' ih =>
    intro b
    by_cases hp : p c
    · simp only [List.cons_append, List.dropWhile, hp]
      exact ih b
    · simp only [List.cons_append, List.dropWhile, hp]
      simp

theorem trimEnd_append_nl (x : Str) : trimEnd (x ++ ['\n']) = trimEnd x := by
  unfold trimEnd trimStart
  rw [List.reverse_append]
  simp [List.dropWhile, isWs]

theorem trim_append_nl (l : Str) : trim (l ++ ['\n']) = trim l := by
  unfold trim
  have hsplit := dropWhile_append_split (fun c => isWs c) l ['\n']
  by_cases h : trimStart l = []
  · have h2 : trimStart (l ++ ['\n']) = [] := by
      unfold trimStart at *
      rw [hsplit, if_pos h]
      simp [List.dropWhile, isWs]
    rw [h, h2]
  · have h2 : trimStart (l ++ ['\n']) = trimStart l ++ ['\n'] := by
      unfold trimStart at *
      rw [hsplit, if_neg h]
    rw [h2, trimEnd_append_nl]

theorem takeWhile_append_nl : ∀ (xs : Str) (c : Char), ¬ ('\n' = c) →
    List.takeWhile (fun x => x = c) (xs ++ ['\n']) =
      List.takeWhile (fun x => x = c) xs := by
  intro xs c h
  induction xs with
  | nil => simp [List.takeWhile, h]
  | cons x xs' ih =>
    by_cases hx : x = c
    · subst hx
      simp only [List.cons_append, List.takeWhile_cons]
      simp [ih]
    · simp [List.takeWhile_cons, hx]

theorem fenceTransition_append_nl (st : ScanState) (l : Str) :
    fenceTransition st (l ++ ['\n']) = fenceTransition st l := by
  unfold fenceTransition
  have hsplit := dropWhile_append_split (fun c => c = ' ' || c = '\t') l ['\n']
  by_cases h : trimStartSpTab l = []
  · have h2 : trimStartSpTab (l ++ ['\n']) = ['\n'] := by
      unfold trimStartSpTab at *
      rw [hsplit, if_pos h]
      rfl
    rw [h2, h]
    dsimp only
    rw [if_neg (by decide)]
  · have h2 : trimStartSpTab (l ++ ['\n']) = trimStartSpTab l ++ ['\n'] := by
      unfold trimStartSpTab at *
      rw [hsplit, if_neg h]
    obtain ⟨first, restT, hft⟩ := List.exists_cons_of_ne_nil h
    rw [h2, hft, List.cons_append]
    dsimp only
    by_cases h1 : first = '`' ∨ first = '~'
    · rw [if_pos h1, if_pos h1]
      have hfirstne : ¬ ('\n' = first) := by
        rcases h1 with h1 | h1 <;> (subst h1; decide)
      have hcount : List.takeWhile (fun c => c = first)
          (first :: (restT ++ ['\n'])) =
          List.takeWhile (fun c => c = first) (first :: restT) := by
        rw [show first :: (restT ++ ['\n']) = (first :: restT) ++ ['\n'] from rfl]
        exact takeWhile_append_nl (first :: restT) first hfirstne
      rw [hcount]
    · rw [if_neg h1, if_neg h1]

theorem indent_of_append_nl (l : Str) (hne : l ≠ [])
    (h : ¬ (List.head? (l ++ ['\n']) = some '\t' ∨ lit "    " <+: (l ++ ['\n']))) :
    ¬ (List.head? l = some '\t' ∨ lit "    " <+: l) := by
  intro hcon
  apply h
  rcases hcon with hh | hp
  · left
    obtain ⟨c, l', rfl⟩ := List.exists_cons_of_ne_nil hne
    simpa using hh
  · right
    exact hp.trans (List.prefix_append l ['\n'])

theorem processLine_append_nl (src : ContributorsSource) (g : Str)
    (ir : List Str → Str) (st : ScanState) (l : Str)
    (hpass : (processLine src g ir st l).2 = l) (hnl : '\n' ∉ l) :
    (processLine src g ir st (l ++ ['\n'])).2 = l ++ ['\n'] := by
  by_cases hne : l = []
  · subst hne
    cases hf : st.in_fence with
    | true => exact processLine_in_fence_emits src g ir st _ hf
    | false =>
      show (processLine src g ir st ['\n']).2 = ['\n']
      rw [inert_any src g ir ['\n'] (inert_blank src g ir) st hf]
  · cases hft : fenceTransition st (l ++ ['\n']) with
    | some st' => rw [processLine_some_fence src g ir st _ st' hft]
    | none =>
      cases hf : st.in_fence with
      | true => rw [processLine_none_inFence src g ir st _ hft hf]
      | false =>
        rw [processLine_none_normal src g ir st _ hft hf]
        by_cases hind : List.head? (l ++ ['\n']) = some '\t' ∨
            lit "    " <+: (l ++ ['\n'])
        · rw [if_pos hind]
        · rw [if_neg hind]
          cases htp : tokenParse (trim (l ++ ['\n'])) with
          | none => rfl
          | some args =>
            exfalso
            rw [trim_append_nl l] at htp
            have hftl : fenceTransition st l = none := by
              rw [← fenceTransition_append_nl st l]
              exact hft
            have hindl := indent_of_append_nl l hne hind
            have heq := processLine_none_normal src g ir st l hftl hf
            rw [if_neg hindl, htp] at heq
            have h2 : (processLine src g ir st l).2 = emittedBlock src g ir args := by
              rw [heq]
            rw [hpass] at h2
            have hmem : '\n' ∈ l := by
              rw [h2, emittedBlock_shape]
              simp
            exact hnl hmem

theorem validChain_tail (l : Str) (ls : List Str)
    (h : ValidChain (l :: ls)) : ValidChain ls := by
  cases ls with
  | nil => trivial
  | cons l' ls' => exact h.2

theorem validChain_head (l : Str) (ls : List Str) (h : ValidChain (l :: ls)) :
    ClosedLine l ∨ (OpenLine l ∧ ls = []) := by
  cases ls with
  | nil =>
    rcases h with h | h
    · exact Or.inl h
    · exact Or.inr ⟨h, rfl⟩
  | cons l' ls' => exact Or.inl h.1

/-- Rescanning the scanner's own output (with an optional
newline-initial inert suffix appended) changes nothing: the key lemma
behind the idempotence claim.  `hblk` says every line of every emitted
roster block is inert. -/
theorem rescan_identity (src : ContributorsSource) (g : Str)
    (ir : List Str → Str)
    (hblk : ∀ args, ∀ l ∈ splitInclusive (emittedBlock src g ir args),
      inert src g ir l)
    (f : Str) (hf : ∀ l ∈ splitInclusive f, inert src g ir l)
    (hfh : f = [] ∨ f.head? = some '\n') :
    ∀ (lines : List Str) (st : ScanState), ValidChain lines →
    (processAll src g ir st (splitInclusive
        ((processAll src g ir st lines).2.flatten ++ f))).2.flatten
      = (processAll src g ir st lines).2.flatten ++ f := by
  intro lines
  induction lines with
  | nil =>
    intro st _
    show (processAll src g ir st (splitInclusive
        (([] : List Str).flatten ++ f))).2.flatten = ([] : List Str).flatten ++ f
    simp only [List.flatten_nil, List.nil_append]
    rw [processAll_all_pass src g ir (splitInclusive f) hf st,
      splitInclusive_flatten]
  | cons l ls ih =>
    intro st hvc
    have hvt : ValidChain ls := validChain_tail l ls hvc
    rw [processAll_cons]
    dsimp only
    simp only [List.flatten_cons]
    rcases processLine_cases src g ir st l with hpass | ⟨hfst, hst, args, htp, hblock⟩
    · -- the line is emitted unchanged
      rw [hpass]
      rcases validChain_head l ls hvc with hcl | ⟨hop, hnil⟩
      · -- the line is a closed line
        obtain ⟨m, hm, hmnl⟩ := hcl
        have hlne : l ≠ [] := by rw [hm]; simp
        have hlast : l.getLast? = some '\n' := by rw [hm, List.getLast?_concat]
        have hsingle : splitInclusive l = [l] := by
          rw [hm]
          exact splitInclusive_closed m hmnl
        rw [List.append_assoc, splitInclusive_append_nl l _ hlne hlast, hsingle,
          List.singleton_append, processAll_cons]
        simp only [List.flatten_cons]
        rw [hpass, ih ((processLine src g ir st l).1) hvt]
      · -- the line is an unterminated final line
        subst hnil
        simp only [processAll, List.flatten_nil, List.append_nil]
        rcases hfh with hfe | hfh
        · subst hfe
          rw [List.append_nil, splitInclusive_open l hop.2 hop.1, processAll_cons]
          simp only [List.flatten_cons, processAll, List.flatten_nil, List.append_nil]
          exact hpass
        · obtain ⟨c, f', rfl⟩ : ∃ c f', f = c :: f' := by
            cases f with
            | nil => cases hfh
            | cons c f' => exact ⟨c, f', rfl⟩
          have hc : c = '\n' := by simpa using hfh
          subst hc
          rw [splitInclusive_closed_join l f' hop.2, processAll_cons]
          simp only [List.flatten_cons]
          rw [processLine_append_nl src g ir st l hpass hop.2]
          have hf' : ∀ x ∈ splitInclusive f', inert src g ir x := by
            intro x hx
            apply hf
            rw [splitInclusive_cons_nl]
            exact List.mem_cons_of_mem _ hx
          rw [processAll_all_pass src g ir (splitInclusive f') hf' _,
            splitInclusive_flatten]
          simp
    · -- the line was a roster token and was replaced by the block
      rw [hblock, hst]
      rw [List.append_assoc,
        splitInclusive_append_nl (emittedBlock src g ir args) _
          (emittedBlock_ne_nil src g ir args) (emittedBlock_getLast src g ir args),
        processAll_append,
        processAll_all_inert_normal src g ir
          (splitInclusive (emittedBlock src g ir args)) (hblk args) st hfst]
      simp only [List.flatten_append]
      rw [splitInclusive_flatten, ih st hvt]

theorem chapterApply_decomp (cfg : RunCfg) (ir : List Str → Str)
    (facts : PageFacts) (x : Str) :
    chapterApply cfg ir facts x =
      footerStep cfg facts (headerStep cfg facts
        (replace_contributors_tokens cfg.source (usedGlobalHtml cfg)
          (usedRenderer cfg ir) x)) := by
  unfold chapterApply headerStep footerStep usedGlobalHtml usedRenderer
    headerHtmlOf footerHtmlOf
  by_cases hen : cfg.contributors_enabled = true <;> simp [hen]

theorem replace_tokens_inert_front (src : ContributorsSource) (g : Str)
    (ir : List Str → Str) (a X : Str) (hne : a ≠ [])
    (hlast : a.getLast? = some '\n')
    (ha : ∀ l ∈ splitInclusive a, inert src g ir l) :
    replace_contributors_tokens src g ir (a ++ X) =
      a ++ replace_contributors_tokens src g ir X := by
  unfold replace_contributors_tokens
  rw [splitInclusive_append_nl a X hne hlast, processAll_append,
    processAll_all_inert_normal src g ir (splitInclusive a) ha state0 rfl]
  simp only [List.flatten_append]
  rw [splitInclusive_flatten]

/-- C4 counterexample: with a resolved configuration whose header
template contains a newline followed by `~~~`, running the page decorator
twice over the same content with the same configuration and git facts
does *not* equal running it once — the fence delimiter inside the
prepended header block re-pairs with the unclosed fence of the content
and exposes the roster token on the second run. -/
theorem C4_counterexample :
    chapterApply cfgNoIdem irEmpty factsEx
        (chapterApply cfgNoIdem irEmpty factsEx (lit "~~~\n{% contributors %}\n")) ≠
      chapterApply cfgNoIdem irEmpty factsEx (lit "~~~\n{% contributors %}\n") := by
  decide

/-- C4 (amended): running the page decorator twice over the same chapter
content with the same resolved configuration and per-page git facts
yields content identical to running it once, *provided* every line of
every emitted roster block is inert for the scanner (neither a fence
delimiter nor a further roster token) and the rendered header and footer
blocks are newline-free inert lines.  The header is then not
re-prepended (its exact rendered block already starts the content), the
footer is not re-appended (its exact rendered block already occurs), and
no roster block is duplicated (rescanning the output replaces nothing). -/
theorem C4_decorator_idempotent (cfg : RunCfg) (ir : List Str → Str)
    (facts : PageFacts) (c : Str)
    (hblk : ∀ args, ∀ l ∈ splitInclusive (emittedBlock cfg.source
      (usedGlobalHtml cfg) (usedRenderer cfg ir) args),
      inert cfg.source (usedGlobalHtml cfg) (usedRenderer cfg ir) l)
    (hh1 : '\n' ∉ headerHtmlOf cfg facts)
    (hh2 : inert cfg.source (usedGlobalHtml cfg) (usedRenderer cfg ir)
      (headerHtmlOf cfg facts ++ ['\n']))
    (hf1 : '\n' ∉ footerHtmlOf cfg facts)
    (hf2 : inert cfg.source (usedGlobalHtml cfg) (usedRenderer cfg ir)
      (footerHtmlOf cfg facts ++ ['\n'])) :
    chapterApply cfg ir facts (chapterApply cfg ir facts c) =
      chapterApply cfg ir facts c := by
  simp only [chapterApply_decomp]
  set src := cfg.source with hsrc
  set g := usedGlobalHtml cfg with hg
  set irU := usedRenderer cfg ir with hirU
  set hH := headerHtmlOf cfg facts with hhH
  set fH := footerHtmlOf cfg facts with hfH
  set y := replace_contributors_tokens src g irU c with hy
  -- instances of the rescan lemma
  have hRR : ∀ f : Str, (∀ l ∈ splitInclusive f, inert src g irU l) →
      (f = [] ∨ f.head? = some '\n') →
      replace_contributors_tokens src g irU (y ++ f) = y ++ f := by
    intro f hfl hfhd
    rw [hy]
    unfold replace_contributors_tokens
    exact rescan_identity src g irU hblk f hfl hfhd (splitInclusive c) state0
      (splitInclusive_valid c)
  have hRc : replace_contributors_tokens src g irU y = y := by
    have := hRR [] (by intro l hl; cases hl) (Or.inl rfl)
    simpa using this
  -- the header insertion string
  have hins_ne : (hH ++ lit "\n\n") ≠ [] := by
    intro hx
    rcases List.append_eq_nil.mp hx with ⟨_, h2⟩
    cases h2
  have hins_eq : hH ++ lit "\n\n" = (hH ++ ['\n']) ++ ['\n'] := by
    simp [lit]
  have hins_last : (hH ++ lit "\n\n").getLast? = some '\n' := by
    rw [hins_eq, List.getLast?_concat]
  have hins_split : splitInclusive (hH ++ lit "\n\n") = [hH ++ ['\n'], ['\n']] := by
    rw [show hH ++ lit "\n\n" = hH ++ '\n' :: ['\n'] from rfl,
      splitInclusive_closed_join hH ['\n'] hh1,
      show splitInclusive ['\n'] = ['\n'] :: splitInclusive [] from
        splitInclusive_cons_nl []]
    rfl
  have hins_inert : ∀ l ∈ splitInclusive (hH ++ lit "\n\n"), inert src g irU l := by
    rw [hins_split]
    intro l hl
    rcases List.mem_cons.mp hl with rfl | hl
    · exact hh2
    · rcases List.mem_cons.mp hl with rfl | hl
      · exact inert_blank src g irU
      · cases hl
  -- the footer suffix strings
  have hfoot_split : splitInclusive (fH ++ ['\n']) = [fH ++ ['\n']] :=
    splitInclusive_closed fH hf1
  have hB : ∀ pre : Str, pre = lit "\n\n" ∨ pre = lit "\n" →
      (∀ l ∈ splitInclusive (pre ++ (fH ++ ['\n'])), inert src g irU l) ∧
      (pre ++ (fH ++ ['\n'])).head? = some '\n' := by
    intro pre hpre
    rcases hpre with rfl | rfl
    · constructor
      · rw [show lit "\n\n" ++ (fH ++ ['\n']) = '\n' :: ('\n' :: (fH ++ ['\n']))
            from rfl,
          splitInclusive_cons_nl, splitInclusive_cons_nl, hfoot_split]
        intro l hl
        rcases List.mem_cons.mp hl with rfl | hl
        · exact inert_blank src g irU
        · rcases List.mem_cons.mp hl with rfl | hl
          · exact inert_blank src g irU
          · rcases List.mem_cons.mp hl with rfl | hl
            · exact hf2
            · cases hl
      · rfl
    · constructor
      · rw [show lit "\n" ++ (fH ++ ['\n']) = '\n' :: (fH ++ ['\n']) from rfl,
          splitInclusive_cons_nl, hfoot_split]
        intro l hl
        rcases List.mem_cons.mp hl with rfl | hl
        · exact inert_blank src g irU
        · rcases List.mem_cons.mp hl with rfl | hl
          · exact hf2
          · cases hl
      · rfl
  -- shapes of the header step
  have HP : cfg.show_header = true →
      (hH ++ lit "\n\n") <+: headerStep cfg facts y := by
    intro hsh
    unfold headerStep
    rw [hhH, if_pos hsh]
    by_cases hgd : ¬ ((hH ++ lit "\n\n") <+: y)
    · rw [if_pos hgd]
      exact List.prefix_append _ _
    · rw [if_neg hgd]
      exact not_not.mp hgd
  have Hcases : headerStep cfg facts y = y ∨
      headerStep cfg facts y = (hH ++ lit "\n\n") ++ y := by
    unfold headerStep
    rw [hhH]
    by_cases hsh : cfg.show_header = true
    · rw [if_pos hsh]
      by_cases hgd : ¬ ((hH ++ lit "\n\n") <+: y)
      · rw [if_pos hgd]
        exact Or.inr rfl
      · rw [if_neg hgd]
        exact Or.inl rfl
    · rw [if_neg hsh]
      exact Or.inl rfl
  -- shapes of the footer step
  have FP : cfg.show_footer = true →
      fH <:+: footerStep cfg facts (headerStep cfg facts y) := by
    intro hsf
    unfold footerStep
    rw [hfH, if_pos hsf]
    by_cases hgd : ¬ (fH <:+: headerStep cfg facts y)
    · rw [if_pos hgd]
      refine ⟨headerStep cfg facts y ++
        (if ¬ (lit "\n\n" <:+ headerStep cfg facts y) then lit "\n\n" else lit "\n"),
        ['\n'], ?_⟩
      simp [List.append_assoc]
    · rw [if_neg hgd]
      exact not_not.mp hgd
  have Fcases : footerStep cfg facts (headerStep cfg facts y) =
        headerStep cfg facts y ∨
      ∃ pre : Str, (pre = lit "\n\n" ∨ pre = lit "\n") ∧
        footerStep cfg facts (headerStep cfg facts y) =
          headerStep cfg facts y ++ pre ++ fH ++ ['\n'] := by
    unfold footerStep
    rw [hfH]
    by_cases hsf : cfg.show_footer = true
    · rw [if_pos hsf]
      by_cases hgd : ¬ (fH <:+: headerStep cfg facts y)
      · rw [if_pos hgd]
        refine Or.inr ⟨if ¬ (lit "\n\n" <:+ headerStep cfg facts y) then
          lit "\n\n" else lit "\n", ?_, rfl⟩
        by_cases h2 : ¬ (lit "\n\n" <:+ headerStep cfg facts y)
        · rw [if_pos h2]
          exact Or.inl rfl
        · rw [if_neg h2]
          exact Or.inr rfl
      · rw [if_neg hgd]
        exact Or.inl rfl
    · rw [if_neg hsf]
      exact Or.inl rfl
  -- the rescan leaves the decorated page unchanged
  have hR : replace_contributors_tokens src g irU
        (footerStep cfg facts (headerStep cfg facts y)) =
      footerStep cfg facts (headerStep cfg facts y) := by
    rcases Hcases with hH1 | hH1 <;>
      rcases Fcases with hF1 | ⟨pre, hpre, hF1⟩
    · rw [hF1, hH1]
      exact hRc
    · rw [hF1, hH1]
      simp only [List.append_assoc]
      exact hRR (pre ++ (fH ++ ['\n'])) (hB pre hpre).1 (Or.inr (hB pre hpre).2)
    · rw [hF1, hH1]
      rw [replace_tokens_inert_front src g irU (hH ++ lit "\n\n") y hins_ne
        hins_last hins_inert, hRc]
    · rw [hF1, hH1]
      have hassoc : (hH ++ lit "\n\n") ++ y ++ pre ++ fH ++ ['\n'] =
          (hH ++ lit "\n\n") ++ (y ++ (pre ++ (fH ++ ['\n']))) := by
        simp [List.append_assoc]
      rw [hassoc, replace_tokens_inert_front src g irU (hH ++ lit "\n\n")
        (y ++ (pre ++ (fH ++ ['\n']))) hins_ne hins_last hins_inert,
        hRR (pre ++ (fH ++ ['\n'])) (hB pre hpre).1 (Or.inr (hB pre hpre).2)]
  -- the second header step is a no-op
  have hinsout : cfg.show_header = true →
      (hH ++ lit "\n\n") <+: footerStep cfg facts (headerStep cfg facts y) := by
    intro hsh
    have hp := HP hsh
    rcases Fcases with hF1 | ⟨pre, hpre, hF1⟩
    · rw [hF1]
      exact hp
    · rw [hF1]
      exact hp.trans (by
        simp only [List.append_assoc]
        exact List.prefix_append _ _)
  have hStepH : ∀ w : Str,
      (cfg.show_header = true → (headerHtmlOf cfg facts ++ lit "\n\n") <+: w) →
      headerStep cfg facts w = w := by
    intro w hw
    unfold headerStep
    by_cases hsh : cfg.show_header = true
    · rw [if_pos hsh, if_neg (not_not_intro (hw hsh))]
    · rw [if_neg hsh]
  have hHout : headerStep cfg facts
        (footerStep cfg facts (headerStep cfg facts y)) =
      footerStep cfg facts (headerStep cfg facts y) := by
    refine hStepH _ ?_
    intro hsh
    have hp := hinsout hsh
    rw [hhH] at hp
    exact hp
  -- the second footer step is a no-op
  have hStepF : ∀ w : Str,
      (cfg.show_footer = true → footerHtmlOf cfg facts <:+: w) →
      footerStep cfg facts w = w := by
    intro w hw
    unfold footerStep
    by_cases hsf : cfg.show_footer = true
    · rw [if_pos hsf, if_neg (not_not_intro (hw hsf))]
    · rw [if_neg hsf]
  have hFout : footerStep cfg facts
        (footerStep cfg facts (headerStep cfg facts y)) =
      footerStep cfg facts (headerStep cfg facts y) := by
    refine hStepF _ ?_
    intro hsf
    have hp := FP hsf
    rw [hfH] at hp
    exact hp
  rw [hR, hHout, hFout]

/-- C4 witness: the amended idempotence theorem applied to a concrete
configuration with single-line header/footer templates, a concrete
roster HTML, and concrete content containing a roster token. -/
theorem C4_witness :
    chapterApply cfgIdem irEmpty factsEx
        (chapterApply cfgIdem irEmpty factsEx (lit "hello\n{% contributors %}\n")) =
      chapterApply cfgIdem irEmpty factsEx (lit "hello\n{% contributors %}\n") := by
  apply C4_decorator_idempotent
  · intro args l hl
    rw [show emittedBlock cfgIdem.source (usedGlobalHtml cfgIdem)
        (usedRenderer cfgIdem irEmpty) args = lit "\n<p>R</p>\n\n" from rfl] at hl
    rw [show splitInclusive (lit "\n<p>R</p>\n\n") =
        [lit "\n", lit "<p>R</p>\n", lit "\n"] from by decide] at hl
    rcases List.mem_cons.mp hl with rfl | hl
    · exact inert_blank _ _ _
    · rcases List.mem_cons.mp hl with rfl | hl
      · show inert _ _ _ (lit "<p>R</p>\n")
        unfold inert; decide
      · rcases List.mem_cons.mp hl with rfl | hl
        · exact inert_blank _ _ _
        · cases hl
  · decide
  · unfold inert; decide
  · decide
  · unfold inert; decide

end GitInfo
